import Mathlib

/-!
Verification of the streaming fuzzy (wildcard) pattern matcher from
`src/fuzzy-matching.cpp`.

The C++ code builds an Aho-Corasick automaton over the wildcard-delimited
fragments of the pattern and streams the text through it, maintaining a
sliding window of per-offset match counters.

Embedding choices.  The trie built by `AutomatonBuilder::AddString` has one
node per distinct prefix of an inserted word, and each node is reached from
the root by exactly one character path; we therefore identify an
`AutomatonNode*` with its path from the root, a `List Char`.  A node exists
exactly when its path is the root path `[]` or a prefix of some inserted
word.  The pointer fields (`suffix_link`, `terminal_link`) and the
functions computed over them (`GetAutomatonTransition`,
`GenerateMatches`) are recursive in the C++ code with termination ensured
by the suffix links pointing to strictly shorter paths; here they are
defined with an explicit fuel argument (so that they stay structurally
recursive and kernel-computable) and the fuel is then discharged by
theorems showing the values satisfy the original recursion equations.
-/

namespace FuzzyMatching

open List (Perm)
open scoped List

/-- A node of the trie exists for the root path `[]` and for every path
that is a prefix of one of the inserted words: `AddString` walks from the
root creating one child per character of the inserted word.  `ws` is the
list of inserted words. -/
def isNode (ws : List (List Char)) (s : List Char) : Bool :=
  s.isEmpty || ws.any (fun w => s.isPrefixOf w)

/-- Model of `GetTrieTransition`: the trie child of `node` for `character`,
`none` when there is no such child (C++ returns `nullptr`). -/
def GetTrieTransition (ws : List (List Char)) (s : List Char) (c : Char) :
    Option (List Char) :=
  if isNode ws (s ++ [c]) then some (s ++ [c]) else none

/-- The longest suffix of `s` that is a node of the trie.  This is the
mathematical characterization of the value the automaton's suffix-link
and transition recursions compute; the recursions themselves are embedded
below and proved to agree with it. -/
def lsn (ws : List (List Char)) : List Char → List Char
  | [] => []
  | a :: s => if isNode ws (a :: s) then a :: s else lsn ws s

theorem isNode_nil (ws : List (List Char)) : isNode ws [] = true := by
  simp [isNode]

theorem isNode_iff {ws : List (List Char)} {s : List Char} :
    isNode ws s = true ↔ s = [] ∨ ∃ w ∈ ws, s <+: w := by
  simp [isNode, List.isEmpty_iff, List.any_eq_true, List.isPrefixOf_iff_prefix]

/-- Node paths are closed under prefixes. -/
theorem isNode_closed {ws : List (List Char)} {s t : List Char}
    (hp : s <+: t) (ht : isNode ws t = true) : isNode ws s = true := by
  rcases isNode_iff.mp ht with h | ⟨w, hw, hpre⟩
  · subst h
    have : s = [] := List.prefix_nil.mp hp
    simp [this, isNode_nil]
  · exact isNode_iff.mpr (Or.inr ⟨w, hw, hp.trans hpre⟩)

theorem lsn_nil (ws : List (List Char)) : lsn ws [] = [] := rfl

theorem lsn_cons (ws : List (List Char)) (a : Char) (s : List Char) :
    lsn ws (a :: s) = if isNode ws (a :: s) then a :: s else lsn ws s := rfl

/-- The longest node suffix is a suffix. -/
theorem lsn_suffix (ws : List (List Char)) : ∀ s : List Char, lsn ws s <:+ s
  | [] => List.suffix_refl []
  | a :: s => by
    rw [lsn_cons]
    by_cases h : isNode ws (a :: s) = true
    · simp [h]
    · simp only [h, if_false, Bool.false_eq_true]
      exact (lsn_suffix ws s).trans (List.suffix_cons a s)

/-- The longest node suffix is a node. -/
theorem isNode_lsn (ws : List (List Char)) :
    ∀ s : List Char, isNode ws (lsn ws s) = true
  | [] => isNode_nil ws
  | a :: s => by
    rw [lsn_cons]
    by_cases h : isNode ws (a :: s) = true
    · simp [h]
    · simpa [h] using isNode_lsn ws s

/-- Maximality: every node suffix of `s` is a suffix of `lsn ws s`. -/
theorem suffix_lsn_of_isNode (ws : List (List Char)) :
    ∀ {s u : List Char}, u <:+ s → isNode ws u = true → u <:+ lsn ws s := by
  intro s
  induction s with
  | nil =>
    intro u hu _
    simpa [lsn_nil] using hu
  | cons a s ih =>
    intro u hu hnode
    rw [lsn_cons]
    rcases List.suffix_cons_iff.mp hu with h | h
    · subst h
      simp [hnode]
    · by_cases hn : isNode ws (a :: s) = true
      · simp only [hn, if_true]
        exact h.trans (List.suffix_cons a s)
      · simpa [hn] using ih h hnode

/-- A node equals its own longest node suffix. -/
theorem lsn_eq_self {ws : List (List Char)} {s : List Char}
    (h : isNode ws s = true) : lsn ws s = s := by
  have h1 : s <:+ lsn ws s := suffix_lsn_of_isNode ws (List.suffix_refl s) h
  have h2 : lsn ws s <:+ s := lsn_suffix ws s
  exact h2.eq_of_length (Nat.le_antisymm h2.length_le h1.length_le)

/-- Extensionality for `lsn`: a node suffix of which every node suffix of
`s` is a suffix must be the longest node suffix. -/
theorem lsn_eq_of (ws : List (List Char)) {s x : List Char}
    (hsuf : x <:+ s) (hnode : isNode ws x = true)
    (hmax : ∀ u, u <:+ s → isNode ws u = true → u <:+ x) : lsn ws s = x := by
  have h1 : lsn ws s <:+ x := hmax _ (lsn_suffix ws s) (isNode_lsn ws s)
  have h2 : x <:+ lsn ws s := suffix_lsn_of_isNode ws hsuf hnode
  exact h2.eq_of_length (Nat.le_antisymm h2.length_le h1.length_le) |>.symm

/-- A nonempty suffix of `v ++ [c]` is `u ++ [c]` for a suffix `u` of `v`. -/
theorem suffix_snoc_iff {v u : List Char} {c : Char} :
    u <:+ v ++ [c] ↔ u = [] ∨ ∃ u', u = u' ++ [c] ∧ u' <:+ v := by
  constructor
  · intro h
    rcases u.eq_nil_or_concat with rfl | ⟨u', c', hu⟩
    · exact Or.inl rfl
    · subst hu
      rw [List.concat_eq_append] at h
      obtain ⟨p, hp⟩ := h
      rw [← List.append_assoc] at hp
      obtain ⟨h1, h2⟩ := List.append_inj' hp rfl
      have hc : c' = c := by simpa using h2
      exact Or.inr ⟨u', by simp [hc], ⟨p, h1⟩⟩
  · rintro (rfl | ⟨u', rfl, p, hp⟩)
    · exact List.nil_suffix
    · exact ⟨p, by rw [← List.append_assoc, hp]⟩

/-- Core transfer lemma: if `b ++ [c]` is a suffix of `a ++ [c]` and every
node suffix of `a ++ [c]` is a suffix of `b ++ [c]`, then the two share
their longest node suffix. -/
theorem lsn_transfer (ws : List (List Char)) {a b : List Char} {c : Char}
    (hsub : b ++ [c] <:+ a ++ [c])
    (hall : ∀ u, u <:+ a ++ [c] → isNode ws u = true → u <:+ b ++ [c]) :
    lsn ws (a ++ [c]) = lsn ws (b ++ [c]) := by
  refine lsn_eq_of ws ((lsn_suffix ws (b ++ [c])).trans hsub)
    (isNode_lsn ws (b ++ [c])) ?_
  intro u hu hnode
  exact suffix_lsn_of_isNode ws (hall u hu hnode) hnode

/-- Collapsing a step: the longest node suffix of `v ++ [c]` only depends
on the longest node suffix of `v`.  This is the reason the automaton can
replace the scanned text by its current node. -/
theorem lsn_append_lsn (ws : List (List Char)) (v : List Char) (c : Char) :
    lsn ws (v ++ [c]) = lsn ws (lsn ws v ++ [c]) := by
  have hsub : lsn ws v ++ [c] <:+ v ++ [c] := by
    rcases lsn_suffix ws v with ⟨p, hp⟩
    exact ⟨p, by rw [← List.append_assoc, hp]⟩
  refine lsn_transfer ws hsub ?_
  intro u hu hnode
  rcases suffix_snoc_iff.mp hu with rfl | ⟨u', rfl, hs⟩
  · exact List.nil_suffix
  · have hu'node : isNode ws u' = true :=
      isNode_closed (List.prefix_append u' [c]) hnode
    have : u' <:+ lsn ws v := suffix_lsn_of_isNode ws hs hu'node
    rcases this with ⟨p, hp⟩
    exact ⟨p, by rw [← List.append_assoc, hp]⟩

/-- Suffix-link step: when `s` is a node, `s ++ [c]` is not a node and
`s ≠ []`, the longest node suffix of `s ++ [c]` is that of
`(longest proper node suffix of s) ++ [c]`. -/
theorem lsn_append_of_not_node (ws : List (List Char)) {s : List Char}
    (c : Char) (hnot : ¬ isNode ws (s ++ [c]) = true) (hne : s ≠ []) :
    lsn ws (s ++ [c]) = lsn ws (lsn ws s.tail ++ [c]) := by
  have htail : s.tail <:+ s := List.tail_suffix s
  have hsub : lsn ws s.tail ++ [c] <:+ s ++ [c] := by
    rcases (lsn_suffix ws s.tail).trans htail with ⟨p, hp⟩
    exact ⟨p, by rw [← List.append_assoc, hp]⟩
  refine lsn_transfer ws hsub ?_
  intro u hu hnode
  rcases suffix_snoc_iff.mp hu with rfl | ⟨u', rfl, hs⟩
  · exact List.nil_suffix
  · have hu'node : isNode ws u' = true :=
      isNode_closed (List.prefix_append u' [c]) hnode
    have hne' : u' ≠ s := by
      rintro rfl
      exact hnot hnode
    have hs' : u' <:+ s.tail := by
      rcases s with _ | ⟨a, s⟩
      · exact absurd rfl hne
      · rcases List.suffix_cons_iff.mp hs with h | h
        · exact absurd h hne'
        · exact h
    have : u' <:+ lsn ws s.tail := suffix_lsn_of_isNode ws hs' hu'node
    rcases this with ⟨p, hp⟩
    exact ⟨p, by rw [← List.append_assoc, hp]⟩

/-! ### The automaton transition function and suffix links

`GetAutomatonTransition` in the C++ code reads the stored `suffix_link`
field of each node when falling back; `SuffixLinkCalculator` fills those
fields in BFS order, so the fields consulted during construction are
already final.  We embed the transition function with the consulted
suffix-link assignment passed as a function `slf`, and a fuel argument in
place of the pointer-chasing recursion. -/

/-- Fueled model of `GetAutomatonTransition` (the cache-free recursion; the
memoization cache is modelled separately below): take the trie child if it
exists, stay at the root if at the root, otherwise fall back to the stored
suffix link `slf s`. -/
def GetAutomatonTransitionF (ws : List (List Char))
    (slf : List Char → List Char) : Nat → List Char → Char → List Char
  | 0, _, _ => []
  | fuel + 1, s, c =>
    if isNode ws (s ++ [c]) then s ++ [c]
    else if s = [] then []
    else GetAutomatonTransitionF ws slf fuel (slf s) c

/-- Fueled model of `SuffixLinkCalculator`: the root and depth-one nodes
link to the root; a deeper node `t ++ [c]` links to the automaton
transition of its parent's suffix link by `c`.  The suffix links consulted
during the transition are those of strictly shorter nodes, which BFS order
has already finalized; the recursion with one less fuel models exactly
that. -/
def suffixLinkF (ws : List (List Char)) : Nat → List Char → List Char
  | 0, _ => []
  | fuel + 1, s =>
    if s.dropLast = [] then []
    else GetAutomatonTransitionF ws (suffixLinkF ws fuel) (fuel + 1)
      (suffixLinkF ws fuel s.dropLast) (s.getLastD ' ')

/-- The suffix link of a node (fuel discharged). -/
def suffixLink (ws : List (List Char)) (s : List Char) : List Char :=
  suffixLinkF ws s.length s

/-- The automaton transition of a node (fuel discharged).  This is the
model of `GetAutomatonTransition`. -/
def GetAutomatonTransition (ws : List (List Char)) (s : List Char)
    (c : Char) : List Char :=
  GetAutomatonTransitionF ws (suffixLink ws) (s.length + 1) s c

/-- The fueled transition computes the longest node suffix, whenever the
consulted suffix links are correct for all nodes up to the current depth
and the fuel covers the depth. -/
theorem GetAutomatonTransitionF_eq_lsn (ws : List (List Char)) :
    ∀ n, ∀ s : List Char, s.length ≤ n → isNode ws s = true →
    ∀ slf : List Char → List Char,
    (∀ v : List Char, isNode ws v = true → v ≠ [] → v.length ≤ s.length →
      slf v = lsn ws v.tail) →
    ∀ c : Char, ∀ fuel, s.length + 1 ≤ fuel →
    GetAutomatonTransitionF ws slf fuel s c = lsn ws (s ++ [c]) := by
  intro n
  induction n with
  | zero =>
    intro s hlen hnode slf hslf c fuel hfuel
    have hs : s = [] := List.length_eq_zero.mp (Nat.le_antisymm hlen (Nat.zero_le _))
    subst hs
    obtain ⟨f, rfl⟩ : ∃ f, fuel = f + 1 :=
      ⟨fuel - 1, (Nat.succ_pred_eq_of_pos (Nat.lt_of_lt_of_le Nat.zero_lt_one hfuel)).symm⟩
    by_cases h : isNode ws ([] ++ [c]) = true
    · simp only [List.nil_append] at h
      simp [GetAutomatonTransitionF, h, lsn_eq_self h]
    · simp only [GetAutomatonTransitionF, h, Bool.false_eq_true, if_false, if_true]
      simp only [List.nil_append] at h
      simp [lsn_cons, h, lsn_nil]
  | succ n ih =>
    intro s hlen hnode slf hslf c fuel hfuel
    obtain ⟨f, rfl⟩ : ∃ f, fuel = f + 1 :=
      ⟨fuel - 1, (Nat.succ_pred_eq_of_pos (Nat.lt_of_lt_of_le (Nat.succ_pos _) hfuel)).symm⟩
    by_cases h : isNode ws (s ++ [c]) = true
    · simp [GetAutomatonTransitionF, h, lsn_eq_self h]
    · by_cases hs : s = []
      · subst hs
        simp only [GetAutomatonTransitionF, h, Bool.false_eq_true, if_false, if_true]
        simp only [List.nil_append] at h
        simp [lsn_cons, h, lsn_nil]
      · simp only [GetAutomatonTransitionF, h, Bool.false_eq_true, if_false, hs,
          if_false]
        have hsl : slf s = lsn ws s.tail := hslf s hnode hs (Nat.le_refl _)
        have hu_node : isNode ws (lsn ws s.tail) = true := isNode_lsn ws s.tail
        have hu_len : (lsn ws s.tail).length ≤ n := by
          have h1 : (lsn ws s.tail).length ≤ s.tail.length :=
            (lsn_suffix ws s.tail).length_le
          have h2 : s.tail.length = s.length - 1 := List.length_tail s
          have h3 : 1 ≤ s.length := List.length_pos.mpr hs
          omega
        have hslf' : ∀ v : List Char, isNode ws v = true → v ≠ [] →
            v.length ≤ (lsn ws s.tail).length → slf v = lsn ws v.tail := by
          intro v hv hvne hvlen
          refine hslf v hv hvne (Nat.le_trans hvlen ?_)
          have h1 : (lsn ws s.tail).length ≤ s.tail.length :=
            (lsn_suffix ws s.tail).length_le
          have h2 : s.tail.length = s.length - 1 := List.length_tail s
          omega
        have hfuel' : (lsn ws s.tail).length + 1 ≤ f := by
          have h1 : (lsn ws s.tail).length ≤ s.tail.length :=
            (lsn_suffix ws s.tail).length_le
          have h2 : s.tail.length = s.length - 1 := List.length_tail s
          have h3 : 1 ≤ s.length := List.length_pos.mpr hs
          omega
        rw [hsl]
        rw [ih (lsn ws s.tail) hu_len hu_node slf hslf' c f hfuel']
        exact (lsn_append_of_not_node ws c h hs).symm

/-- The suffix link of a non-root node is the longest proper node suffix
of its path, for any sufficient fuel. -/
theorem suffixLinkF_eq_lsn_tail (ws : List (List Char)) :
    ∀ n, ∀ s : List Char, s.length ≤ n → isNode ws s = true → s ≠ [] →
    ∀ fuel, s.length ≤ fuel → suffixLinkF ws fuel s = lsn ws s.tail := by
  intro n
  induction n with
  | zero =>
    intro s hlen _ hne _ _
    exact absurd (List.length_eq_zero.mp (Nat.le_antisymm hlen (Nat.zero_le _))) hne
  | succ n ih =>
    intro s hlen hnode hne fuel hfuel
    obtain ⟨f, rfl⟩ : ∃ f, fuel = f + 1 :=
      ⟨fuel - 1, (Nat.succ_pred_eq_of_pos
        (Nat.lt_of_lt_of_le (List.length_pos.mpr hne) hfuel)).symm⟩
    obtain ⟨t, c, rfl⟩ : ∃ t c, s = t ++ [c] := by
      rcases s.eq_nil_or_concat with h | ⟨t, c, h⟩
      · exact absurd h hne
      · exact ⟨t, c, by simpa [List.concat_eq_append] using h⟩
    rw [suffixLinkF]
    simp only [List.dropLast_concat, List.getLastD_concat]
    by_cases ht : t = []
    · subst ht
      simp [lsn_nil]
    · simp only [ht, if_false]
      have htlen : t.length ≤ n := by
        have := List.length_append t [c]
        simp only [List.length_singleton] at this
        omega
      have htnode : isNode ws t = true :=
        isNode_closed (List.prefix_append t [c]) hnode
      have hfl : t.length ≤ f := by
        have := List.length_append t [c]
        simp only [List.length_singleton] at this
        omega
      rw [ih t htlen htnode ht f hfl]
      have hu_node : isNode ws (lsn ws t.tail) = true := isNode_lsn ws t.tail
      have hu_len : (lsn ws t.tail).length ≤ n := by
        have h1 : (lsn ws t.tail).length ≤ t.tail.length :=
          (lsn_suffix ws t.tail).length_le
        have h2 : t.tail.length = t.length - 1 := List.length_tail t
        omega
      have hslf : ∀ v : List Char, isNode ws v = true → v ≠ [] →
          v.length ≤ (lsn ws t.tail).length → suffixLinkF ws f v = lsn ws v.tail := by
        intro v hv hvne hvlen
        refine ih v (Nat.le_trans hvlen hu_len) hv hvne f ?_
        have h1 : (lsn ws t.tail).length ≤ t.tail.length :=
          (lsn_suffix ws t.tail).length_le
        have h2 : t.tail.length = t.length - 1 := List.length_tail t
        omega
      have hfuel2 : (lsn ws t.tail).length + 1 ≤ f + 1 := by
        have h1 : (lsn ws t.tail).length ≤ t.tail.length :=
          (lsn_suffix ws t.tail).length_le
        have h2 : t.tail.length = t.length - 1 := List.length_tail t
        omega
      rw [GetAutomatonTransitionF_eq_lsn ws n (lsn ws t.tail) hu_len hu_node
        (suffixLinkF ws f) hslf c (f + 1) hfuel2]
      have htail : (t ++ [c]).tail = t.tail ++ [c] := by
        rcases t with _ | ⟨a, t⟩
        · exact absurd rfl ht
        · rfl
      rw [htail]
      exact (lsn_append_lsn ws t.tail c).symm

theorem suffixLink_nil (ws : List (List Char)) : suffixLink ws [] = [] := rfl

/-- The suffix link of a non-root node is the longest proper suffix of its
path that is again a node. -/
theorem suffixLink_eq {ws : List (List Char)} {s : List Char}
    (hnode : isNode ws s = true) (hne : s ≠ []) :
    suffixLink ws s = lsn ws s.tail :=
  suffixLinkF_eq_lsn_tail ws s.length s (Nat.le_refl _) hnode hne s.length
    (Nat.le_refl _)

/-- Suffix links point to nodes. -/
theorem isNode_suffixLink {ws : List (List Char)} {s : List Char}
    (hnode : isNode ws s = true) : isNode ws (suffixLink ws s) = true := by
  by_cases hne : s = []
  · subst hne
    simpa [suffixLink_nil] using isNode_nil ws
  · rw [suffixLink_eq hnode hne]
    exact isNode_lsn ws s.tail

/-- Each suffix-link step moves to a strictly shallower node. -/
theorem suffixLink_length_lt {ws : List (List Char)} {s : List Char}
    (hnode : isNode ws s = true) (hne : s ≠ []) :
    (suffixLink ws s).length < s.length := by
  rw [suffixLink_eq hnode hne]
  have h1 : (lsn ws s.tail).length ≤ s.tail.length :=
    (lsn_suffix ws s.tail).length_le
  have h2 : s.tail.length = s.length - 1 := List.length_tail s
  have h3 : 1 ≤ s.length := List.length_pos.mpr hne
  omega

/-- The automaton transition computes the longest node suffix of the
extended path. -/
theorem GetAutomatonTransition_eq_lsn {ws : List (List Char)}
    {s : List Char} (hnode : isNode ws s = true) (c : Char) :
    GetAutomatonTransition ws s c = lsn ws (s ++ [c]) := by
  refine GetAutomatonTransitionF_eq_lsn ws s.length s (Nat.le_refl _) hnode
    (suffixLink ws) ?_ c (s.length + 1) (Nat.le_refl _)
  intro v hv hvne _
  exact suffixLink_eq hv hvne

/-- The recursion equations of `GetAutomatonTransition` from the C++
source hold of the embedded (fuel-discharged) function: take the trie
child if present, else stay at the root if at the root, else defer to the
suffix link.  Fuel independence of the embedded function is exactly the
termination claim. -/
theorem GetAutomatonTransition_eqn {ws : List (List Char)} {s : List Char}
    (hnode : isNode ws s = true) (c : Char) :
    GetAutomatonTransition ws s c =
      match GetTrieTransition ws s c with
      | some u => u
      | none =>
        if s = [] then []
        else GetAutomatonTransition ws (suffixLink ws s) c := by
  rw [GetAutomatonTransition_eq_lsn hnode c]
  unfold GetTrieTransition
  by_cases h : isNode ws (s ++ [c]) = true
  · simp [h, lsn_eq_self h]
  · simp only [h, Bool.false_eq_true, if_false]
    by_cases hs : s = []
    · subst hs
      simp only [List.nil_append]
      simp only [List.nil_append] at h
      simp [lsn_cons, h, lsn_nil]
    · simp only [hs, if_false]
      have h1 : isNode ws (suffixLink ws s) = true := isNode_suffixLink hnode
      rw [GetAutomatonTransition_eq_lsn h1 c, suffixLink_eq hnode hs]
      exact lsn_append_of_not_node ws c h hs

/-! ### Terminated ids, terminal links and match generation -/

/-- The words of the builder input (first components of the
(word, identifier) pairs fed to `AutomatonBuilder::Add`). -/
def wordsOf (wids : List (List Char × Nat)) : List (List Char) :=
  wids.map (fun q => q.1)

/-- Model of the `terminated_string_ids` field: `AddString` walks the word
and appends the identifier at the terminal node, so node `s` carries, in
insertion order, the identifiers of exactly the inserted words equal to
`s`. -/
def terminatedStringIds (wids : List (List Char × Nat)) (s : List Char) :
    List Nat :=
  (wids.filter (fun q => decide (q.1 = s))).map (fun q => q.2)

/-- Fueled model of `TerminalLinkCalculator::DiscoverVertex`: the root has
no terminal link; any other node links to its suffix parent if that parent
terminates some word, and otherwise inherits the suffix parent's terminal
link (final by BFS order, modelled by the recursion at smaller fuel). -/
def terminalLinkF (wids : List (List Char × Nat)) :
    Nat → List Char → Option (List Char)
  | 0, _ => none
  | fuel + 1, s =>
    if s = [] then none
    else
      if (terminatedStringIds wids (suffixLink (wordsOf wids) s)).isEmpty then
        terminalLinkF wids fuel (suffixLink (wordsOf wids) s)
      else some (suffixLink (wordsOf wids) s)

/-- The terminal link of a node (fuel discharged). -/
def terminalLink (wids : List (List Char × Nat)) (s : List Char) :
    Option (List Char) :=
  terminalLinkF wids (s.length + 1) s

/-- Fueled model of `NodeReference::GenerateMatches`: a do-while loop that
reports the terminated ids of the current node and then follows the
terminal link until it is absent. -/
def GenerateMatchesF (wids : List (List Char × Nat)) :
    Nat → List Char → List Nat
  | 0, _ => []
  | fuel + 1, s =>
    terminatedStringIds wids s ++
      match terminalLink wids s with
      | none => []
      | some u => GenerateMatchesF wids fuel u

/-- The list of ids reported by `GenerateMatches` from node `s` (fuel
discharged). -/
def GenerateMatches (wids : List (List Char × Nat)) (s : List Char) :
    List Nat :=
  GenerateMatchesF wids (s.length + 1) s

/-- A node with a nonempty terminated-ids list is a word, hence a node. -/
theorem isNode_of_terminated {wids : List (List Char × Nat)}
    {u : List Char} (h : (terminatedStringIds wids u).isEmpty = false) :
    isNode (wordsOf wids) u = true := by
  have hx : ∃ a, a ∈ terminatedStringIds wids u := by
    cases hl : terminatedStringIds wids u with
    | nil => rw [hl] at h; simp at h
    | cons a rest => exact ⟨a, hl ▸ List.mem_cons_self a rest⟩
  obtain ⟨a, ha⟩ := hx
  unfold terminatedStringIds at ha
  rcases List.mem_map.mp ha with ⟨q, hq, _⟩
  rcases List.mem_filter.mp hq with ⟨hmem, heq⟩
  have hqu : q.1 = u := of_decide_eq_true heq
  refine isNode_iff.mpr (Or.inr ⟨u, ?_, List.prefix_refl _⟩)
  exact List.mem_map.mpr ⟨q, hmem, hqu⟩

/-- Searching the suffix chain for a property that only holds at nodes may
start from the longest node suffix. -/
theorem find?_tails_lsn (ws : List (List Char)) (p : List Char → Bool)
    (hp : ∀ x, p x = true → isNode ws x = true) :
    ∀ v : List Char, v.tails.find? p = (lsn ws v).tails.find? p := by
  intro v
  induction v with
  | nil => rw [lsn_nil]
  | cons a r ih =>
    rw [lsn_cons]
    by_cases h : isNode ws (a :: r) = true
    · simp [h]
    · simp only [h, Bool.false_eq_true, if_false]
      rw [List.tails_cons]
      have hpa : ¬ p (a :: r) = true := fun hc => h (hp _ hc)
      rw [List.find?_cons_of_neg _ hpa]
      exact ih

/-- If no suffix in the chain satisfies the search property, and the
property failing means empty terminated ids, the concatenation of all
terminated ids along the chain is empty. -/
theorem flatMap_tails_of_find?_none (wids : List (List Char × Nat))
    {v : List Char}
    (h : v.tails.find? (fun u => !(terminatedStringIds wids u).isEmpty)
      = none) :
    v.tails.flatMap (terminatedStringIds wids) = [] := by
  rw [List.flatMap_eq_nil_iff]
  intro u hu
  have := List.find?_eq_none.mp h u hu
  have hb : (!(terminatedStringIds wids u).isEmpty) = false := by
    cases hx : (!(terminatedStringIds wids u).isEmpty) with
    | false => rfl
    | true => exact absurd hx this
  have : (terminatedStringIds wids u).isEmpty = true := by
    cases hx : (terminatedStringIds wids u).isEmpty with
    | true => rfl
    | false => rw [hx] at hb; simp at hb
  exact List.isEmpty_iff.mp this

/-- The terminated ids along the chain starting at the first match-bearing
suffix are all the terminated ids of the chain. -/
theorem flatMap_tails_of_find?_some (wids : List (List Char × Nat)) :
    ∀ {v u : List Char},
    v.tails.find? (fun x => !(terminatedStringIds wids x).isEmpty) = some u →
    v.tails.flatMap (terminatedStringIds wids)
      = u.tails.flatMap (terminatedStringIds wids) := by
  intro v
  induction v with
  | nil =>
    intro u h
    rw [show ([] : List Char).tails = [[]] from rfl, List.find?_cons] at h
    cases hx : (!(terminatedStringIds wids []).isEmpty) with
    | true =>
      rw [hx] at h
      simp only [Option.some.injEq] at h
      rw [← h]
    | false =>
      rw [hx] at h
      simp at h
  | cons a r ih =>
    intro u h
    rw [List.tails_cons, List.find?_cons] at h
    cases hx : (!(terminatedStringIds wids (a :: r)).isEmpty) with
    | true =>
      rw [hx] at h
      simp only [Option.some.injEq] at h
      rw [← h]
    | false =>
      rw [hx] at h
      have hemp : terminatedStringIds wids (a :: r) = [] := by
        cases hy : (terminatedStringIds wids (a :: r)).isEmpty with
        | true => exact List.isEmpty_iff.mp hy
        | false => rw [hy] at hx; simp at hx
      rw [List.tails_cons, List.flatMap_cons, hemp, List.nil_append]
      exact ih h

/-- Characterization of the terminal link of a non-root node: the first
(longest) proper suffix of the node's path at which some word terminates,
`none` when there is no such suffix.  This is the fuel-independence and
correctness statement for `terminalLinkF`. -/
theorem terminalLinkF_eq (wids : List (List Char × Nat)) :
    ∀ n, ∀ s : List Char, s.length ≤ n →
    isNode (wordsOf wids) s = true → s ≠ [] →
    ∀ fuel, s.length + 1 ≤ fuel →
    terminalLinkF wids fuel s
      = s.tail.tails.find? (fun u => !(terminatedStringIds wids u).isEmpty) := by
  intro n
  induction n with
  | zero =>
    intro s hlen _ hne
    exact absurd (List.length_eq_zero.mp (Nat.le_antisymm hlen (Nat.zero_le _))) hne
  | succ n ih =>
    intro s hlen hnode hne fuel hfuel
    obtain ⟨f, rfl⟩ : ∃ f, fuel = f + 1 :=
      ⟨fuel - 1, (Nat.succ_pred_eq_of_pos
        (Nat.lt_of_lt_of_le (Nat.succ_pos _) hfuel)).symm⟩
    rw [terminalLinkF]
    simp only [hne, if_false]
    set ws := wordsOf wids with hws
    have hsp : suffixLink ws s = lsn ws s.tail := suffixLink_eq hnode hne
    have hfind : s.tail.tails.find?
        (fun u => !(terminatedStringIds wids u).isEmpty)
        = (suffixLink ws s).tails.find?
          (fun u => !(terminatedStringIds wids u).isEmpty) := by
      rw [hsp]
      exact find?_tails_lsn ws _ (fun x hx => isNode_of_terminated (by
        cases hy : (terminatedStringIds wids x).isEmpty with
        | false => rfl
        | true => rw [hy] at hx; simp at hx)) s.tail
    rw [hfind]
    cases hemp : (terminatedStringIds wids (suffixLink ws s)).isEmpty with
    | true =>
      simp only [hemp, if_true]
      by_cases hspnil : suffixLink ws s = []
      · rw [hspnil] at hemp ⊢
        have hf1 : 1 ≤ f := by
          have : 1 ≤ s.length := List.length_pos.mpr hne
          omega
        obtain ⟨f', rfl⟩ : ∃ f', f = f' + 1 :=
          ⟨f - 1, (Nat.succ_pred_eq_of_pos hf1).symm⟩
        rw [terminalLinkF]
        simp only [if_pos rfl]
        rw [show ([] : List Char).tails = [[]] from rfl, List.find?_cons,
          show (!(terminatedStringIds wids ([] : List Char)).isEmpty) = false
            from by rw [hemp]; rfl]
        rfl
      · have hspnode : isNode ws (suffixLink ws s) = true :=
          isNode_suffixLink hnode
        have hsplt : (suffixLink ws s).length < s.length :=
          suffixLink_length_lt hnode hne
        have hrec := ih (suffixLink ws s) (by omega) hspnode hspnil f (by omega)
        rw [hrec]
        have hx : (!(terminatedStringIds wids (suffixLink ws s)).isEmpty)
            = false := by rw [hemp]; rfl
        rcases hd : suffixLink ws s with _ | ⟨a, r⟩
        · exact absurd hd hspnil
        · rw [hd] at hx
          rw [List.tails_cons, List.find?_cons, hx]
          rfl
    | false =>
      simp only [hemp, Bool.false_eq_true, if_false]
      have hptrue : (!(terminatedStringIds wids (suffixLink ws s)).isEmpty)
          = true := by rw [hemp]; rfl
      rcases hd : suffixLink ws s with _ | ⟨a, r⟩
      · rw [hd] at hptrue
        rw [show ([] : List Char).tails = [[]] from rfl, List.find?_cons,
          hptrue]
      · rw [hd] at hptrue
        rw [List.tails_cons, List.find?_cons, hptrue]

/-- `terminalLink` at the root is absent. -/
theorem terminalLink_nil (wids : List (List Char × Nat)) :
    terminalLink wids [] = none := rfl

theorem terminalLink_eq {wids : List (List Char × Nat)} {s : List Char}
    (hnode : isNode (wordsOf wids) s = true) (hne : s ≠ []) :
    terminalLink wids s
      = s.tail.tails.find? (fun u => !(terminatedStringIds wids u).isEmpty) :=
  terminalLinkF_eq wids s.length s (Nat.le_refl _) hnode hne (s.length + 1)
    (Nat.le_refl _)

theorem GenerateMatchesF_none {wids : List (List Char × Nat)} {s : List Char}
    (fuel : Nat) (h : terminalLink wids s = none) :
    GenerateMatchesF wids (fuel + 1) s = terminatedStringIds wids s := by
  rw [GenerateMatchesF, h]
  simp

theorem GenerateMatchesF_some {wids : List (List Char × Nat)}
    {s u : List Char} (fuel : Nat) (h : terminalLink wids s = some u) :
    GenerateMatchesF wids (fuel + 1) s
      = terminatedStringIds wids s ++ GenerateMatchesF wids fuel u := by
  rw [GenerateMatchesF, h]

/-- `GenerateMatches` from a node reports the terminated ids of every
suffix of the node's path, longest suffix first.  This is the
fuel-independence and correctness statement for `GenerateMatchesF`. -/
theorem GenerateMatchesF_eq (wids : List (List Char × Nat)) :
    ∀ n, ∀ s : List Char, s.length ≤ n →
    isNode (wordsOf wids) s = true →
    ∀ fuel, s.length + 1 ≤ fuel →
    GenerateMatchesF wids fuel s
      = s.tails.flatMap (terminatedStringIds wids) := by
  intro n
  induction n with
  | zero =>
    intro s hlen _ fuel hfuel
    have hs : s = [] := List.length_eq_zero.mp (Nat.le_antisymm hlen (Nat.zero_le _))
    subst hs
    obtain ⟨f, rfl⟩ : ∃ f, fuel = f + 1 :=
      ⟨fuel - 1, (Nat.succ_pred_eq_of_pos (Nat.lt_of_lt_of_le Nat.zero_lt_one hfuel)).symm⟩
    rw [GenerateMatchesF, terminalLink_nil]
    rw [show ([] : List Char).tails = [[]] from rfl]
    simp
  | succ n ih =>
    intro s hlen hnode fuel hfuel
    obtain ⟨f, rfl⟩ : ∃ f, fuel = f + 1 :=
      ⟨fuel - 1, (Nat.succ_pred_eq_of_pos (Nat.lt_of_lt_of_le (Nat.succ_pos _) hfuel)).symm⟩
    rcases s with _ | ⟨a, r⟩
    · rw [GenerateMatchesF_none f (terminalLink_nil wids)]
      rw [show ([] : List Char).tails = [[]] from rfl]
      simp
    · have hs : (a :: r) ≠ [] := List.cons_ne_nil a r
      have htl := terminalLink_eq hnode hs
      rw [List.tails_cons, List.flatMap_cons]
      cases hfd : r.tails.find?
          (fun u => !(terminatedStringIds wids u).isEmpty) with
      | none =>
        have h0 : terminalLink wids (a :: r) = none := by rw [htl]; exact hfd
        rw [GenerateMatchesF_none f h0]
        rw [flatMap_tails_of_find?_none wids hfd]
        simp
      | some u =>
        have h0 : terminalLink wids (a :: r) = some u := by rw [htl]; exact hfd
        rw [GenerateMatchesF_some f h0]
        have hu_mem : u ∈ r.tails := List.mem_of_find?_eq_some hfd
        have hu_suffix : u <:+ r := (List.mem_tails u r).mp hu_mem
        have hu_p := List.find?_some hfd
        have hu_node : isNode (wordsOf wids) u = true := by
          refine isNode_of_terminated ?_
          cases hy : (terminatedStringIds wids u).isEmpty with
          | false => rfl
          | true => rw [hy] at hu_p; simp at hu_p
        have hu_len : u.length ≤ n := by
          have h1 : u.length ≤ r.length := hu_suffix.length_le
          have h2 : (a :: r).length = r.length + 1 := rfl
          omega
        have hfuel' : u.length + 1 ≤ f := by
          have h1 : u.length ≤ r.length := hu_suffix.length_le
          have h2 : (a :: r).length = r.length + 1 := rfl
          omega
        rw [ih u hu_len hu_node f hfuel']
        rw [flatMap_tails_of_find?_some wids hfd]

theorem GenerateMatches_eq {wids : List (List Char × Nat)} {s : List Char}
    (hnode : isNode (wordsOf wids) s = true) :
    GenerateMatches wids s = s.tails.flatMap (terminatedStringIds wids) :=
  GenerateMatchesF_eq wids s.length s (Nat.le_refl _) hnode (s.length + 1)
    (Nat.le_refl _)

/-- Membership in a terminated-ids list unfolds to a (word, id) pair of
the builder input. -/
theorem mem_terminatedStringIds {wids : List (List Char × Nat)}
    {u : List Char} {a : Nat} :
    a ∈ terminatedStringIds wids u ↔ (u, a) ∈ wids := by
  unfold terminatedStringIds
  constructor
  · intro h
    rcases List.mem_map.mp h with ⟨q, hq, hqa⟩
    rcases List.mem_filter.mp hq with ⟨hmem, heq⟩
    have h1 : q.1 = u := of_decide_eq_true heq
    have : q = (u, a) := by
      rcases q with ⟨q1, q2⟩
      simp only at h1 hqa
      rw [h1, hqa]
    exact this ▸ hmem
  · intro h
    refine List.mem_map.mpr ⟨(u, a), List.mem_filter.mpr ⟨h, ?_⟩, rfl⟩
    simp

/-- The ids reported from node `s` are exactly the ids of pairs whose word
is a suffix of `s`. -/
theorem mem_GenerateMatches {wids : List (List Char × Nat)} {s : List Char}
    (hnode : isNode (wordsOf wids) s = true) {a : Nat} :
    a ∈ GenerateMatches wids s ↔ ∃ w, (w, a) ∈ wids ∧ w <:+ s := by
  rw [GenerateMatches_eq hnode]
  rw [List.mem_flatMap]
  constructor
  · rintro ⟨u, hu, ha⟩
    exact ⟨u, mem_terminatedStringIds.mp ha, (List.mem_tails u s).mp hu⟩
  · rintro ⟨w, hw, hsuf⟩
    exact ⟨w, (List.mem_tails w s).mpr hsuf, mem_terminatedStringIds.mpr hw⟩

/-- Splitting a filter along two mutually exclusive alternatives, up to
permutation. -/
theorem filter_or_perm {α : Type} (l : List α) (p q : α → Bool)
    (h : ∀ a ∈ l, ¬ (p a = true ∧ q a = true)) :
    l.filter (fun a => p a || q a) ~ l.filter p ++ l.filter q := by
  induction l with
  | nil => simp
  | cons a l ih =>
    have hrest : ∀ b ∈ l, ¬ (p b = true ∧ q b = true) :=
      fun b hb => h b (List.mem_cons_of_mem a hb)
    have ihl := ih hrest
    cases hp : p a with
    | true =>
      have hq : q a = false := by
        cases hq : q a with
        | false => rfl
        | true => exact absurd ⟨hp, hq⟩ (h a (List.mem_cons_self a l))
      simp only [List.filter_cons, hp, hq, Bool.true_or, if_true]
      simpa using ihl.cons a
    | false =>
      cases hq : q a with
      | true =>
        simp only [List.filter_cons, hp, hq, Bool.false_or, if_true]
        refine (ihl.cons a).trans ?_
        simp only [Bool.false_eq_true, if_false]
        exact List.perm_middle.symm
      | false =>
        simp only [List.filter_cons, hp, hq, Bool.false_or, Bool.false_eq_true,
          if_false]
        exact ihl

/-- `GenerateMatches` from node `s` reports, up to order, the ids of
exactly the (word, id) pairs of the builder input whose word is a suffix
of `s`; one report per pair. -/
theorem GenerateMatches_perm {wids : List (List Char × Nat)}
    {s : List Char} (hnode : isNode (wordsOf wids) s = true) :
    GenerateMatches wids s
      ~ (wids.filter (fun q => decide (q.1 <:+ s))).map (fun q => q.2) := by
  rw [GenerateMatches_eq hnode]
  clear hnode
  induction s with
  | nil =>
    rw [show ([] : List Char).tails = [[]] from rfl]
    simp only [List.flatMap_cons, List.flatMap_nil, List.append_nil]
    unfold terminatedStringIds
    refine List.Perm.of_eq ?_
    congr 1
    refine List.filter_congr ?_
    intro q _
    simp [List.suffix_nil, eq_comm]
  | cons a r ih =>
    rw [List.tails_cons, List.flatMap_cons]
    have hsplit : wids.filter (fun q => decide (q.1 <:+ a :: r))
        ~ wids.filter (fun q => decide (q.1 = a :: r))
          ++ wids.filter (fun q => decide (q.1 <:+ r)) := by
      have hcong : wids.filter (fun q => decide (q.1 <:+ a :: r))
          = wids.filter (fun q =>
              decide (q.1 = a :: r) || decide (q.1 <:+ r)) := by
        refine List.filter_congr ?_
        intro q _
        by_cases hq : q.1 <:+ a :: r
        · rcases List.suffix_cons_iff.mp hq with h | h
          · simp [hq, h]
          · simp [hq, h]
        · have h1 : ¬ q.1 = a :: r := fun hc => hq (hc ▸ List.suffix_refl _)
          have h2 : ¬ q.1 <:+ r := fun hc => hq (hc.trans (List.suffix_cons a r))
          simp [hq, h1, h2]
      rw [hcong]
      refine filter_or_perm wids _ _ ?_
      intro q _ hc
      rcases hc with ⟨h1, h2⟩
      have h1' : q.1 = a :: r := of_decide_eq_true h1
      have h2' : q.1 <:+ r := of_decide_eq_true h2
      have : (a :: r).length ≤ r.length := h1' ▸ h2'.length_le
      simp at this
    have h1 : (wids.filter (fun q => decide (q.1 <:+ a :: r))).map
          (fun q => q.2)
        ~ (wids.filter (fun q => decide (q.1 = a :: r))).map (fun q => q.2)
          ++ (wids.filter (fun q => decide (q.1 <:+ r))).map (fun q => q.2) :=
      (hsplit.map (fun q => q.2)).trans
        (List.Perm.of_eq (List.map_append _ _ _))
    have h2 : terminatedStringIds wids (a :: r)
        = (wids.filter (fun q => decide (q.1 = a :: r))).map (fun q => q.2) :=
      rfl
    rw [h2]
    exact (List.Perm.append (List.Perm.refl _) ih).trans h1.symm

/-- When the ids fed to the builder are pairwise distinct, the ids a pair
of distinct words carry are distinct, so `GenerateMatches` reports no
duplicates. -/
theorem GenerateMatches_nodup {wids : List (List Char × Nat)}
    {s : List Char} (hnode : isNode (wordsOf wids) s = true)
    (hids : (wids.map (fun q => q.2)).Nodup) :
    (GenerateMatches wids s).Nodup := by
  refine (GenerateMatches_perm hnode).nodup_iff.mpr ?_
  have hsub : (wids.filter (fun q => decide (q.1 <:+ s))).map (fun q => q.2)
      <+ wids.map (fun q => q.2) :=
    (List.filter_sublist wids).map (fun q => q.2)
  exact hids.sublist hsub

/-! ### Split -/

/-- Model of `Split`: a left fold over the string; the accumulator keeps
the finished fragments and the fragment currently being grown
(`splitted_strings.back()` in the C++ code, which starts as the empty
string pushed before the loop).  Consecutive delimiters are not grouped
and delimit empty fragments. -/
def Split (string : List Char) (is_delimiter : Char → Bool) :
    List (List Char) :=
  let r := string.foldl
    (fun (acc : List (List Char) × List Char) (symbol : Char) =>
      if is_delimiter symbol then (acc.1 ++ [acc.2], [])
      else (acc.1, acc.2 ++ [symbol]))
    ([], [])
  r.1 ++ [r.2]

/-- Structural (head) recursion equivalent of `Split`, used in proofs. -/
def splitR (p : Char → Bool) : List Char → List (List Char)
  | [] => [[]]
  | c :: rest =>
    if p c then [] :: splitR p rest
    else
      match splitR p rest with
      | [] => [[c]]
      | h :: t => (c :: h) :: t

theorem splitR_ne_nil (p : Char → Bool) : ∀ s : List Char, splitR p s ≠ []
  | [] => by simp [splitR]
  | c :: rest => by
    rw [splitR]
    by_cases h : p c = true
    · simp [h]
    · simp only [h, Bool.false_eq_true, if_false]
      cases splitR p rest with
      | nil => simp
      | cons h t => simp

/-- Prepending to the first returned fragment. -/
def consHead (cur : List Char) : List (List Char) → List (List Char)
  | [] => [cur]
  | h :: t => (cur ++ h) :: t

theorem Split_foldl_eq (p : Char → Bool) :
    ∀ (s : List Char) (front : List (List Char)) (cur : List Char),
    (let r := s.foldl
      (fun (acc : List (List Char) × List Char) (symbol : Char) =>
        if p symbol then (acc.1 ++ [acc.2], [])
        else (acc.1, acc.2 ++ [symbol]))
      (front, cur)
     r.1 ++ [r.2]) = front ++ consHead cur (splitR p s) := by
  intro s
  induction s with
  | nil =>
    intro front cur
    simp [splitR, consHead]
  | cons c rest ih =>
    intro front cur
    by_cases h : p c = true
    · simp only [List.foldl_cons, h, if_true]
      rw [ih (front ++ [cur]) []]
      rw [splitR]
      simp only [h, if_true]
      rcases hr : splitR p rest with _ | ⟨h1, t1⟩
      · exact absurd hr (splitR_ne_nil p rest)
      · simp [consHead]
    · simp only [List.foldl_cons, h, Bool.false_eq_true, if_false]
      rw [ih front (cur ++ [c])]
      rw [splitR]
      simp only [h, Bool.false_eq_true, if_false]
      rcases hr : splitR p rest with _ | ⟨h1, t1⟩
      · exact absurd hr (splitR_ne_nil p rest)
      · simp [consHead]

/-- The fold in `Split` computes the recursive split. -/
theorem Split_eq_splitR (string : List Char) (p : Char → Bool) :
    Split string p = splitR p string := by
  have := Split_foldl_eq p string [] []
  simp only [List.nil_append] at this
  rw [Split]
  rw [this]
  rcases hr : splitR p string with _ | ⟨h1, t1⟩
  · exact absurd hr (splitR_ne_nil p string)
  · simp [consHead]

/-- The number of fragments is the number of delimiters plus one. -/
theorem splitR_length (p : Char → Bool) :
    ∀ s : List Char, (splitR p s).length = s.countP p + 1 := by
  intro s
  induction s with
  | nil => simp [splitR]
  | cons c rest ih =>
    rw [splitR, List.countP_cons]
    by_cases h : p c = true
    · simp [h, ih]
    · simp only [h, Bool.false_eq_true, if_false]
      rcases hr : splitR p rest with _ | ⟨h1, t1⟩
      · exact absurd hr (splitR_ne_nil p rest)
      · rw [hr] at ih
        simp only [List.length_cons] at ih ⊢
        simp [h, ih]

/-- No returned fragment contains a delimiter. -/
theorem splitR_no_delimiter (p : Char → Bool) :
    ∀ s : List Char, ∀ f ∈ splitR p s, ∀ c ∈ f, p c = false := by
  intro s
  induction s with
  | nil =>
    intro f hf c hc
    simp [splitR] at hf
    subst hf
    simp at hc
  | cons b rest ih =>
    intro f hf c hc
    rw [splitR] at hf
    by_cases h : p b = true
    · simp only [h, if_true] at hf
      rcases List.mem_cons.mp hf with rfl | hf
      · simp at hc
      · exact ih f hf c hc
    · simp only [h, Bool.false_eq_true, if_false] at hf
      rcases hr : splitR p rest with _ | ⟨h1, t1⟩
      · exact absurd hr (splitR_ne_nil p rest)
      · rw [hr] at hf
        rcases List.mem_cons.mp hf with rfl | hf
        · rcases List.mem_cons.mp hc with rfl | hc
          · cases hx : p c with
            | false => rfl
            | true => exact absurd hx h
          · exact ih h1 (hr ▸ List.mem_cons_self h1 t1) c hc
        · exact ih f (hr ▸ List.mem_cons_of_mem h1 hf) c hc

/-- Joining fragments with a single delimiter between consecutive ones. -/
def joinWith (w : Char) : List (List Char) → List Char
  | [] => []
  | [f] => f
  | f :: g :: rest => f ++ w :: joinWith w (g :: rest)

/-- Joining the fragments with the delimiter reconstructs the string,
when the delimiter predicate holds exactly at `w`. -/
theorem splitR_joinWith {p : Char → Bool} {w : Char}
    (hp : ∀ c, p c = true ↔ c = w) :
    ∀ s : List Char, joinWith w (splitR p s) = s := by
  intro s
  induction s with
  | nil => simp [splitR, joinWith]
  | cons c rest ih =>
    rw [splitR]
    by_cases h : p c = true
    · have hc : c = w := (hp c).mp h
      subst hc
      simp only [h, if_true]
      rcases hr : splitR p rest with _ | ⟨h1, t1⟩
      · exact absurd hr (splitR_ne_nil p rest)
      · rw [joinWith, ← hr, ih]
        rfl
    · simp only [h, Bool.false_eq_true, if_false]
      rcases hr : splitR p rest with _ | ⟨h1, t1⟩
      · exact absurd hr (splitR_ne_nil p rest)
      · rcases t1 with _ | ⟨h2, t2⟩
        · have h2 : joinWith w [c :: h1] = c :: h1 := rfl
          rw [h2]
          have h3 : joinWith w [h1] = h1 := rfl
          rw [hr, h3] at ih
          rw [ih]
        · rw [joinWith]
          rw [hr, joinWith] at ih
          rw [List.cons_append, ih]

/-- Splitting a string with no delimiter character returns the single
fragment equal to the string. -/
theorem splitR_no_delims {p : Char → Bool} :
    ∀ {s : List Char}, (∀ c ∈ s, p c = false) → splitR p s = [s] := by
  intro s
  induction s with
  | nil => intro; rfl
  | cons c rest ih =>
    intro h
    rw [splitR]
    have hc : p c = false := h c (List.mem_cons_self c rest)
    simp only [hc, Bool.false_eq_true, if_false]
    rw [ih (fun b hb => h b (List.mem_cons_of_mem c hb))]

/-- Splitting a string of `k` delimiters yields `k + 1` empty fragments. -/
theorem splitR_replicate {p : Char → Bool} {w : Char} (hw : p w = true) :
    ∀ k : Nat, splitR p (List.replicate k w) = List.replicate (k + 1) [] := by
  intro k
  induction k with
  | zero => rfl
  | succ k ih =>
    rw [List.replicate_succ, splitR]
    simp only [hw, if_true]
    rw [ih]
    rfl

/-! ### The wildcard matcher -/

/-- Model of the `WildcardMatcher` state.  The
`aho_corasick_automaton_` member is determined by the builder input, the
list `wids` of (fragment, identifier) pairs; the cursor `state_` is the
current node's path. -/
structure WildcardMatcher where
  words_occurrences_by_position : List Nat
  state : List Char
  number_of_words : Nat
  pattern_length : Nat
  wids : List (List Char × Nat)

/-- Increment the counter at index `k` (a `deque` element update). -/
def incrementAt (l : List Nat) (k : Nat) : List Nat :=
  l.set k (l.getD k 0 + 1)

/-- Model of `UpdateWordOccurrences`: for every id reported by
`GenerateMatches` at the current state, increment the counter at index
`pattern_length - id`. -/
def WildcardMatcher.UpdateWordOccurrences (m : WildcardMatcher) :
    WildcardMatcher :=
  { m with
    words_occurrences_by_position :=
      (GenerateMatches m.wids m.state).foldl
        (fun cnt id => incrementAt cnt (m.pattern_length - id))
        m.words_occurrences_by_position }

/-- Model of `ShiftWordOccurrencesCounters`: `push_back(0)` then
`pop_front()`. -/
def WildcardMatcher.ShiftWordOccurrencesCounters (m : WildcardMatcher) :
    WildcardMatcher :=
  { m with
    words_occurrences_by_position :=
      (m.words_occurrences_by_position ++ [0]).drop 1 }

/-- Model of `Reset`: cursor to the root, counters to
`pattern_length + 1` zeros, then one update and one shift. -/
def WildcardMatcher.Reset (m : WildcardMatcher) : WildcardMatcher :=
  WildcardMatcher.ShiftWordOccurrencesCounters
    (WildcardMatcher.UpdateWordOccurrences
      { m with
        state := []
        words_occurrences_by_position :=
          List.replicate (m.pattern_length + 1) 0 })

/-- Model of `Scan`: one automaton step, update, the match check
(`counts[0] == number_of_words`), and the shift; returns the new state
and whether `on_match` fired. -/
def WildcardMatcher.Scan (m : WildcardMatcher) (character : Char) :
    WildcardMatcher × Bool :=
  let m1 := { m with
    state := GetAutomatonTransition (wordsOf m.wids) m.state character }
  let m2 := m1.UpdateWordOccurrences
  let fired :=
    m2.words_occurrences_by_position.getD 0 0 == m.number_of_words
  (m2.ShiftWordOccurrencesCounters, fired)

/-- The identifier assignment of `BuildFor`: before each fragment the
running id is advanced by the fragment's length (so the fragment's id is
its cumulative end offset in the pattern), and after it by one more for
the consumed wildcard. -/
def assignIds : List (List Char) → Nat → List (List Char × Nat)
  | [], _ => []
  | w :: rest, acc => (w, acc + w.length) :: assignIds rest (acc + w.length + 1)

/-- Model of `WildcardMatcher::BuildFor`. -/
def WildcardMatcher.BuildFor (pattern : List Char) (wildcard : Char) :
    WildcardMatcher :=
  let words := Split pattern (fun x => x == wildcard)
  WildcardMatcher.Reset
    { words_occurrences_by_position := []
      state := []
      number_of_words := words.length
      pattern_length := pattern.length
      wids := assignIds words 0 }

/-- The scan loop of `FindFuzzyMatches`: character at text index `i` is
scanned and, when `on_match` fires, the position `i + 1 - pattern_length`
is recorded. -/
def FindFuzzyMatchesAux (pattern_length : Nat) :
    WildcardMatcher → List Char → Nat → List Nat
  | _, [], _ => []
  | m, c :: rest, i =>
    (if (m.Scan c).2 then [i + 1 - pattern_length] else [])
      ++ FindFuzzyMatchesAux pattern_length (m.Scan c).1 rest (i + 1)

/-- Model of `FindFuzzyMatches`. -/
def FindFuzzyMatches (pattern_with_wildcards text : List Char)
    (wildcard : Char) : List Nat :=
  FindFuzzyMatchesAux pattern_with_wildcards.length
    (WildcardMatcher.BuildFor pattern_with_wildcards wildcard) text 0

/-- The sequence of `on_match` firings produced by scanning a text. -/
def ScanFlags : WildcardMatcher → List Char → List Bool
  | _, [] => []
  | m, c :: rest => (m.Scan c).2 :: ScanFlags (m.Scan c).1 rest

/-! ### Counter-window bookkeeping -/

theorem getD_map_range {f : Nat → Nat} {n k : Nat} (h : k < n) :
    ((List.range n).map f).getD k 0 = f k := by
  rw [List.getD_eq_getElem?_getD, List.getElem?_map, List.getElem?_range h]
  rfl

theorem length_incrementAt (l : List Nat) (j : Nat) :
    (incrementAt l j).length = l.length := by
  simp [incrementAt]

theorem getD_incrementAt_self {l : List Nat} {j : Nat} (h : j < l.length) :
    (incrementAt l j).getD j 0 = l.getD j 0 + 1 := by
  unfold incrementAt
  rw [List.getD_eq_getElem?_getD, List.getElem?_set_self h]
  rfl

theorem getD_incrementAt_ne {l : List Nat} {j k : Nat} (h : j ≠ k) :
    (incrementAt l j).getD k 0 = l.getD k 0 := by
  unfold incrementAt
  rw [List.getD_eq_getElem?_getD, List.getElem?_set_ne h,
    ← List.getD_eq_getElem?_getD]

theorem foldl_incrementAt_length (g : Nat → Nat) :
    ∀ (ids : List Nat) (cnt : List Nat),
    (ids.foldl (fun c i => incrementAt c (g i)) cnt).length = cnt.length := by
  intro ids
  induction ids with
  | nil => intro cnt; rfl
  | cons i ids ih =>
    intro cnt
    rw [List.foldl_cons, ih, length_incrementAt]

theorem foldl_incrementAt_getD (g : Nat → Nat) :
    ∀ (ids : List Nat) (cnt : List Nat) (k : Nat),
    (∀ id, g id < cnt.length) → k < cnt.length →
    ((ids.foldl (fun c i => incrementAt c (g i)) cnt).getD k 0)
      = cnt.getD k 0 + ids.countP (fun i => decide (g i = k)) := by
  intro ids
  induction ids with
  | nil =>
    intro cnt k _ _
    simp
  | cons i ids ih =>
    intro cnt k hbound hk
    rw [List.foldl_cons]
    have hlen : (incrementAt cnt (g i)).length = cnt.length :=
      length_incrementAt cnt (g i)
    rw [ih (incrementAt cnt (g i)) k (fun id => hlen ▸ hbound id)
      (hlen ▸ hk)]
    rw [List.countP_cons]
    by_cases hgi : g i = k
    · rw [← hgi, getD_incrementAt_self (hbound i)]
      simp [hgi]
      omega
    · rw [getD_incrementAt_ne hgi]
      simp [hgi]

/-- Counting along two mutually exclusive alternatives. -/
theorem countP_or_disjoint {α : Type} (l : List α) (p q : α → Bool)
    (h : ∀ a ∈ l, ¬ (p a = true ∧ q a = true)) :
    l.countP (fun a => p a || q a) = l.countP p + l.countP q := by
  rw [List.countP_eq_length_filter, List.countP_eq_length_filter,
    List.countP_eq_length_filter]
  rw [(filter_or_perm l p q h).length_eq]
  simp

/-- For a node `u`, being a suffix of `lsn ws v` and of `v` agree. -/
theorem suffix_lsn_iff {ws : List (List Char)} {u v : List Char}
    (hu : isNode ws u = true) : u <:+ lsn ws v ↔ u <:+ v :=
  ⟨fun h => h.trans (lsn_suffix ws v),
   fun h => suffix_lsn_of_isNode ws h hu⟩

/-! ### Facts about the builder input produced by `BuildFor` -/

theorem wordsOf_assignIds : ∀ (ws : List (List Char)) (acc : Nat),
    wordsOf (assignIds ws acc) = ws := by
  intro ws
  induction ws with
  | nil => intro acc; rfl
  | cons w rest ih =>
    intro acc
    rw [assignIds]
    exact congrArg (fun l => w :: l) (ih (acc + w.length + 1))

theorem assignIds_mem_le : ∀ (ws : List (List Char)) (acc : Nat)
    (q : List Char × Nat), q ∈ assignIds ws acc →
    q.2 + 1 ≤ acc + (ws.map List.length).sum + ws.length := by
  intro ws
  induction ws with
  | nil =>
    intro acc q hq
    simp [assignIds] at hq
  | cons w rest ih =>
    intro acc q hq
    rw [assignIds] at hq
    rcases List.mem_cons.mp hq with rfl | hq
    · simp
      omega
    · have := ih (acc + w.length + 1) q hq
      simp only [List.map_cons, List.sum_cons, List.length_cons]
      omega

theorem assignIds_getD : ∀ (ws : List (List Char)) (acc k : Nat),
    k < ws.length →
    (assignIds ws acc).getD k ([], 0)
      = (ws.getD k [],
        acc + ((ws.take (k + 1)).map List.length).sum + k) := by
  intro ws
  induction ws with
  | nil =>
    intro acc k hk
    simp at hk
  | cons w rest ih =>
    intro acc k hk
    cases k with
    | zero =>
      simp [assignIds]
    | succ k =>
      rw [assignIds]
      have h1 : k < rest.length := by
        simp only [List.length_cons] at hk
        omega
      rw [List.getD_cons_succ, ih (acc + w.length + 1) k h1,
        List.getD_cons_succ]
      rw [List.take_succ_cons, List.map_cons, List.sum_cons]
      congr 1
      omega

/-- Total length bookkeeping for the split of a pattern: fragment lengths
plus the number of fragments is the pattern length plus one. -/
theorem splitR_sum_length (p : Char → Bool) :
    ∀ s : List Char,
    ((splitR p s).map List.length).sum + (splitR p s).length
      = s.length + 1 := by
  intro s
  induction s with
  | nil => simp [splitR]
  | cons c rest ih =>
    rw [splitR]
    by_cases h : p c = true
    · simp only [h, if_true, List.map_cons, List.sum_cons, List.length_cons]
      simp only [List.length_nil, List.length_cons]
      omega
    · simp only [h, Bool.false_eq_true, if_false]
      rcases hr : splitR p rest with _ | ⟨h1, t1⟩
      · exact absurd hr (splitR_ne_nil p rest)
      · rw [hr] at ih
        simp only [List.map_cons, List.sum_cons, List.length_cons] at ih ⊢
        omega

/-- Every identifier assigned by `BuildFor` is at most the pattern
length. -/
theorem buildFor_ids_le (pattern : List Char) (wildcard : Char) :
    ∀ q ∈ assignIds (Split pattern (fun x => x == wildcard)) 0,
    q.2 ≤ pattern.length := by
  intro q hq
  have h1 := assignIds_mem_le _ 0 q hq
  rw [Split_eq_splitR] at h1
  have h2 := splitR_sum_length (fun x => x == wildcard) pattern
  omega

theorem assignIds_length : ∀ (ws : List (List Char)) (acc : Nat),
    (assignIds ws acc).length = ws.length := by
  intro ws
  induction ws with
  | nil => intro acc; rfl
  | cons w rest ih =>
    intro acc
    rw [assignIds, List.length_cons, List.length_cons, ih]

/-! ### The sliding-window invariant -/

/-- The intended contents of counter slot `k` after the text `T` has been
scanned: the number of (fragment, id) pairs whose occurrence has already
been counted into the slot that will be read `k` scans from now.  A pair
`(w, id)` is counted there when its bump happened while scanning the
prefix of length `|T| + k + 1 + id - L` (`0` meaning the virtual update
of `Reset`), which requires `id + k < L` (the bump has happened at all;
`id + k = L` would be this scan's own update) and `L ≤ |T| + k + 1 + id`
(the bump time is not before the virtual update), and the fragment is a
suffix of that prefix. -/
def windowSlot (wids : List (List Char × Nat)) (L : Nat) (T : List Char)
    (k : Nat) : Nat :=
  wids.countP (fun q => decide (q.2 + k < L)
    && decide (L ≤ T.length + k + 1 + q.2)
    && decide (q.1 <:+ T.take (T.length + k + 1 + q.2 - L)))

/-- The match condition at the moment the character completing the text
`S` is scanned: every fragment, placed at its offset in a pattern
alignment ending at the last character of `S`, occurs there. -/
def matchCondB (wids : List (List Char × Nat)) (L : Nat)
    (S : List Char) : Bool :=
  wids.all (fun q => decide (q.2 ≤ L) && decide (L ≤ S.length + q.2)
    && decide (q.1 <:+ S.take (S.length + q.2 - L)))

/-- The matcher invariant after the text `T` has been scanned (starting
from `BuildFor p wildcard`). -/
def Inv (p : List Char) (wildcard : Char) (m : WildcardMatcher)
    (T : List Char) : Prop :=
  m.pattern_length = p.length ∧
  m.wids = assignIds (Split p (fun x => x == wildcard)) 0 ∧
  m.number_of_words = m.wids.length ∧
  m.state = lsn (wordsOf m.wids) T ∧
  m.words_occurrences_by_position
    = (List.range (p.length + 1)).map (windowSlot m.wids p.length T)

theorem list_ext_getD {l1 l2 : List Nat} (hlen : l1.length = l2.length)
    (h : ∀ k, k < l1.length → l1.getD k 0 = l2.getD k 0) : l1 = l2 := by
  refine List.ext_getElem hlen ?_
  intro i h1 h2
  have := h i h1
  rwa [List.getD_eq_getElem l1 0 h1, List.getD_eq_getElem l2 0 h2] at this

theorem getD_drop_one (l : List Nat) (k d : Nat) :
    (l.drop 1).getD k d = l.getD (k + 1) d := by
  cases l with
  | nil => rfl
  | cons a t => exact (List.getD_cons_succ).symm

theorem getD_replicate_zero (n k : Nat) :
    (List.replicate n (0 : Nat)).getD k 0 = 0 := by
  induction n generalizing k with
  | zero => rfl
  | succ n ih =>
    cases k with
    | zero => rfl
    | succ k => rw [List.replicate_succ, List.getD_cons_succ]; exact ih k

/-- The effect of `UpdateWordOccurrences` on slot `k`: each pair whose
fragment is a suffix of the current node's path and whose id maps to slot
`k` contributes one bump. -/
theorem update_getD {wids : List (List Char × Nat)} {L : Nat}
    {counts : List Nat} {s : List Char} {k : Nat}
    (hids : ∀ q ∈ wids, q.2 ≤ L)
    (hnode : isNode (wordsOf wids) s = true)
    (hlen : counts.length = L + 1) (hk : k < L + 1) :
    ((GenerateMatches wids s).foldl
        (fun cnt id => incrementAt cnt (L - id)) counts).getD k 0
      = counts.getD k 0
        + wids.countP (fun q => decide (q.1 <:+ s)
            && decide (q.2 + k = L)) := by
  rw [foldl_incrementAt_getD (fun id => L - id) _ counts k
    (fun id => by show L - id < counts.length; rw [hlen]; omega)
    (by rw [hlen]; exact hk)]
  congr 1
  rw [(GenerateMatches_perm hnode).countP_eq]
  rw [List.countP_map, List.countP_filter]
  refine List.countP_congr ?_
  intro q hq
  have hqle : q.2 ≤ L := hids q hq
  simp only [Function.comp, Bool.and_eq_true, decide_eq_true_eq]
  constructor
  · rintro ⟨h1, h2⟩
    exact ⟨h2, by omega⟩
  · rintro ⟨h1, h2⟩
    exact ⟨by omega, h1⟩

/-- Merging the pre-scan slot contents with this scan's bumps: slot `k`
after the update counts every pair consistent with an alignment `k` scans
ahead whose bump has happened, the bump of pairs with `id + k = L` being
the one of the current scan. -/
theorem merge_slot {wids : List (List Char × Nat)} {L : Nat} {T : List Char}
    (c : Char) (hids : ∀ q ∈ wids, q.2 ≤ L) (k : Nat) :
    windowSlot wids L T k
      + wids.countP (fun q => decide (q.1 <:+ T ++ [c])
          && decide (q.2 + k = L))
      = wids.countP (fun q => decide (q.2 + k ≤ L)
          && decide (L ≤ (T ++ [c]).length + k + q.2)
          && decide (q.1 <:+ (T ++ [c]).take
              ((T ++ [c]).length + k + q.2 - L))) := by
  rw [windowSlot]
  rw [← countP_or_disjoint wids _ _ (by
    intro q _ hcon
    rcases hcon with ⟨h1, h2⟩
    simp only [Bool.and_eq_true, decide_eq_true_eq] at h1 h2
    omega)]
  refine List.countP_congr ?_
  intro q hq
  have hqle : q.2 ≤ L := hids q hq
  have hlenS : (T ++ [c]).length = T.length + 1 := by simp
  simp only [Bool.or_eq_true, Bool.and_eq_true, decide_eq_true_eq, hlenS]
  constructor
  · rintro (⟨⟨h1, h2⟩, h3⟩ | ⟨h1, h2⟩)
    · refine ⟨⟨by omega, by omega⟩, ?_⟩
      have harg : T.length + 1 + k + q.2 - L = T.length + k + 1 + q.2 - L := by
        omega
      rw [harg, List.take_append_of_le_length (by omega)]
      exact h3
    · refine ⟨⟨by omega, by omega⟩, ?_⟩
      have harg : T.length + 1 + k + q.2 - L = (T ++ [c]).length := by
        rw [hlenS]
        omega
      rw [harg, List.take_length]
      exact h1
  · rintro ⟨⟨h1, h2⟩, h3⟩
    by_cases hlt : q.2 + k < L
    · left
      refine ⟨⟨hlt, by omega⟩, ?_⟩
      have harg : T.length + 1 + k + q.2 - L = T.length + k + 1 + q.2 - L := by
        omega
      rw [harg, List.take_append_of_le_length (by omega)] at h3
      exact h3
    · right
      have heq : q.2 + k = L := by omega
      refine ⟨?_, heq⟩
      have harg : T.length + 1 + k + q.2 - L = (T ++ [c]).length := by
        rw [hlenS]
        omega
      rw [harg, List.take_length] at h3
      exact h3

theorem getD_append_lt {l l' : List Nat} {n d : Nat} (h : n < l.length) :
    (l ++ l').getD n d = l.getD n d := by
  induction l generalizing n with
  | nil => simp at h
  | cons a t ih =>
    cases n with
    | zero => rfl
    | succ n =>
      rw [List.cons_append, List.getD_cons_succ, List.getD_cons_succ]
      exact ih (by simpa using h)

theorem getD_append_ge {l l' : List Nat} {n d : Nat} (h : l.length ≤ n) :
    (l ++ l').getD n d = l'.getD (n - l.length) d := by
  induction l generalizing n with
  | nil => simp
  | cons a t ih =>
    cases n with
    | zero => simp at h
    | succ n =>
      rw [List.cons_append, List.getD_cons_succ, ih (by simpa using h)]
      congr 1
      rw [List.length_cons, Nat.succ_sub_succ]

/-- Checking the count against the list length is the `all` test. -/
theorem countP_beq_all {α : Type} (l : List α) (pr : α → Bool) (n : Nat)
    (hn : n = l.length) : (l.countP pr == n) = l.all pr := by
  cases hall : l.all pr with
  | true =>
    have hcp : l.countP pr = l.length :=
      List.countP_eq_length.mpr (fun a ha => List.all_eq_true.mp hall a ha)
    subst hn
    simp [hcp]
  | false =>
    cases hbe : (l.countP pr == n) with
    | false => rfl
    | true =>
      exfalso
      have heq : l.countP pr = n := by simpa using hbe
      have hforall : ∀ a ∈ l, pr a = true :=
        List.countP_eq_length.mp (by rw [heq, hn])
      rw [List.all_eq_true.mpr hforall] at hall
      simp at hall

/-- One scan preserves the invariant, and `on_match` fires exactly when
the match condition holds for the text scanned so far. -/
theorem Scan_inv {p : List Char} {wildcard : Char} {m : WildcardMatcher}
    {T : List Char} (h : Inv p wildcard m T) (c : Char) :
    Inv p wildcard (m.Scan c).1 (T ++ [c]) ∧
      (m.Scan c).2 = matchCondB m.wids p.length (T ++ [c]) := by
  obtain ⟨hL, hw, hn, hs, hc⟩ := h
  have hids : ∀ q ∈ m.wids, q.2 ≤ p.length := by
    rw [hw]
    exact buildFor_ids_le p wildcard
  have hnode' : isNode (wordsOf m.wids)
      (lsn (wordsOf m.wids) (T ++ [c])) = true := isNode_lsn _ _
  have hstate' : GetAutomatonTransition (wordsOf m.wids) m.state c
      = lsn (wordsOf m.wids) (T ++ [c]) := by
    rw [hs, GetAutomatonTransition_eq_lsn (isNode_lsn _ T) c]
    exact (lsn_append_lsn _ T c).symm
  have hqnode : ∀ q ∈ m.wids, isNode (wordsOf m.wids) q.1 = true := by
    intro q hq
    exact isNode_iff.mpr
      (Or.inr ⟨q.1, List.mem_map.mpr ⟨q, hq, rfl⟩, List.prefix_refl _⟩)
  have hclen : m.words_occurrences_by_position.length = p.length + 1 := by
    rw [hc]
    simp
  have hSstate : (m.Scan c).1.state
      = GetAutomatonTransition (wordsOf m.wids) m.state c := rfl
  have hSwids : (m.Scan c).1.wids = m.wids := rfl
  have hSpl : (m.Scan c).1.pattern_length = m.pattern_length := rfl
  have hSnw : (m.Scan c).1.number_of_words = m.number_of_words := rfl
  have hScnt : (m.Scan c).1.words_occurrences_by_position
      = (((GenerateMatches m.wids
            (GetAutomatonTransition (wordsOf m.wids) m.state c)).foldl
          (fun cnt id => incrementAt cnt (m.pattern_length - id))
          m.words_occurrences_by_position) ++ [0]).drop 1 := rfl
  have hSfired : (m.Scan c).2
      = (((GenerateMatches m.wids
            (GetAutomatonTransition (wordsOf m.wids) m.state c)).foldl
          (fun cnt id => incrementAt cnt (m.pattern_length - id))
          m.words_occurrences_by_position).getD 0 0
        == m.number_of_words) := rfl
  rw [hL, hstate'] at hScnt hSfired
  have hcnt1 : ∀ k, k < p.length + 1 →
      ((GenerateMatches m.wids (lsn (wordsOf m.wids) (T ++ [c]))).foldl
          (fun cnt id => incrementAt cnt (p.length - id))
          m.words_occurrences_by_position).getD k 0
        = m.wids.countP (fun q => decide (q.2 + k ≤ p.length)
            && decide (p.length ≤ (T ++ [c]).length + k + q.2)
            && decide (q.1 <:+ (T ++ [c]).take
                ((T ++ [c]).length + k + q.2 - p.length))) := by
    intro k hk
    rw [update_getD hids hnode' hclen hk]
    rw [hc, getD_map_range hk]
    rw [← merge_slot c hids k]
    congr 1
    refine List.countP_congr ?_
    intro q hq
    have hiff : q.1 <:+ lsn (wordsOf m.wids) (T ++ [c]) ↔ q.1 <:+ T ++ [c] :=
      suffix_lsn_iff (hqnode q hq)
    simp only [Bool.and_eq_true, decide_eq_true_eq]
    exact and_congr hiff Iff.rfl
  have hlen1 : ((GenerateMatches m.wids (lsn (wordsOf m.wids) (T ++ [c]))).foldl
      (fun cnt id => incrementAt cnt (p.length - id))
      m.words_occurrences_by_position).length = p.length + 1 := by
    rw [foldl_incrementAt_length]
    exact hclen
  have hfired : (m.Scan c).2 = matchCondB m.wids p.length (T ++ [c]) := by
    rw [hSfired, hcnt1 0 (Nat.succ_pos _), hn]
    have hnorm : (fun (q : List Char × Nat) => decide (q.2 + 0 ≤ p.length)
        && decide (p.length ≤ (T ++ [c]).length + 0 + q.2)
        && decide (q.1 <:+ (T ++ [c]).take
            ((T ++ [c]).length + 0 + q.2 - p.length)))
        = (fun (q : List Char × Nat) => decide (q.2 ≤ p.length)
        && decide (p.length ≤ (T ++ [c]).length + q.2)
        && decide (q.1 <:+ (T ++ [c]).take
            ((T ++ [c]).length + q.2 - p.length))) := by
      funext q
      simp
    rw [hnorm]
    exact countP_beq_all m.wids _ m.wids.length rfl
  have hcnt2 : (m.Scan c).1.words_occurrences_by_position
      = (List.range (p.length + 1)).map
          (windowSlot m.wids p.length (T ++ [c])) := by
    rw [hScnt]
    refine list_ext_getD ?_ ?_
    · simp only [List.length_drop, List.length_append, hlen1,
        List.length_map, List.length_range, List.length_singleton]
      omega
    · intro k hk
      have hklt : k < p.length + 1 := by
        simp only [List.length_drop, List.length_append, hlen1,
          List.length_singleton] at hk
        omega
      rw [getD_drop_one, getD_map_range hklt]
      by_cases hkL : k < p.length
      · rw [getD_append_lt (by rw [hlen1]; omega)]
        rw [hcnt1 (k + 1) (by omega)]
        rw [windowSlot]
        refine List.countP_congr ?_
        intro q hq
        simp only [Bool.and_eq_true, decide_eq_true_eq]
        constructor
        · rintro ⟨⟨h1, h2⟩, h3⟩
          refine ⟨⟨by omega, by omega⟩, ?_⟩
          have harg : (T ++ [c]).length + k + 1 + q.2 - p.length
              = (T ++ [c]).length + (k + 1) + q.2 - p.length := by omega
          rw [harg]
          exact h3
        · rintro ⟨⟨h1, h2⟩, h3⟩
          refine ⟨⟨by omega, by omega⟩, ?_⟩
          have harg : (T ++ [c]).length + (k + 1) + q.2 - p.length
              = (T ++ [c]).length + k + 1 + q.2 - p.length := by omega
          rw [harg]
          exact h3
      · have hkeq : k = p.length := by omega
        subst hkeq
        rw [getD_append_ge (by rw [hlen1])]
        rw [hlen1, Nat.sub_self]
        rw [windowSlot]
        refine ((List.countP_eq_zero.mpr ?_).symm)
        intro q hq hcon
        simp only [Bool.and_eq_true, decide_eq_true_eq] at hcon
        omega
  refine ⟨⟨?_, ?_, ?_, ?_, ?_⟩, hfired⟩
  · rw [hSpl, hL]
  · rw [hSwids]
    exact hw
  · rw [hSnw, hSwids]
    exact hn
  · rw [hSstate, hSwids]
    exact hstate'
  · rw [hSwids]
    exact hcnt2

/-- `Reset` establishes the invariant for the empty scanned text. -/
theorem Reset_inv {p : List Char} {wildcard : Char} {m : WildcardMatcher}
    (hL : m.pattern_length = p.length)
    (hw : m.wids = assignIds (Split p (fun x => x == wildcard)) 0)
    (hn : m.number_of_words = m.wids.length) :
    Inv p wildcard m.Reset [] := by
  have hids : ∀ q ∈ m.wids, q.2 ≤ p.length := by
    rw [hw]
    exact buildFor_ids_le p wildcard
  have hRstate : m.Reset.state = [] := rfl
  have hRwids : m.Reset.wids = m.wids := rfl
  have hRpl : m.Reset.pattern_length = m.pattern_length := rfl
  have hRnw : m.Reset.number_of_words = m.number_of_words := rfl
  have hRcnt : m.Reset.words_occurrences_by_position
      = (((GenerateMatches m.wids []).foldl
          (fun cnt id => incrementAt cnt (m.pattern_length - id))
          (List.replicate (m.pattern_length + 1) 0)) ++ [0]).drop 1 := rfl
  rw [hL] at hRcnt
  have hclen : (List.replicate (p.length + 1) (0 : Nat)).length
      = p.length + 1 := by simp
  have hcnt1 : ∀ k, k < p.length + 1 →
      ((GenerateMatches m.wids []).foldl
          (fun cnt id => incrementAt cnt (p.length - id))
          (List.replicate (p.length + 1) 0)).getD k 0
        = m.wids.countP (fun q => decide (q.1 <:+ ([] : List Char))
            && decide (q.2 + k = p.length)) := by
    intro k hk
    rw [update_getD hids (isNode_nil _) hclen hk]
    rw [getD_replicate_zero, Nat.zero_add]
  have hlen1 : ((GenerateMatches m.wids []).foldl
      (fun cnt id => incrementAt cnt (p.length - id))
      (List.replicate (p.length + 1) 0)).length = p.length + 1 := by
    rw [foldl_incrementAt_length]
    exact hclen
  refine ⟨by rw [hRpl, hL], by rw [hRwids]; exact hw,
    by rw [hRnw, hRwids]; exact hn,
    by rw [hRstate, hRwids, lsn_nil], ?_⟩
  rw [hRwids, hRcnt]
  refine list_ext_getD ?_ ?_
  · simp only [List.length_drop, List.length_append, hlen1,
      List.length_map, List.length_range, List.length_singleton]
    omega
  · intro k hk
    have hklt : k < p.length + 1 := by
      simp only [List.length_drop, List.length_append, hlen1,
        List.length_singleton] at hk
      omega
    rw [getD_drop_one, getD_map_range hklt]
    by_cases hkL : k < p.length
    · rw [getD_append_lt (by rw [hlen1]; omega)]
      rw [hcnt1 (k + 1) (by omega)]
      rw [windowSlot]
      refine List.countP_congr ?_
      intro q hq
      simp only [Bool.and_eq_true, decide_eq_true_eq, List.length_nil,
        List.take_nil]
      constructor
      · rintro ⟨h1, h2⟩
        exact ⟨⟨by omega, by omega⟩, h1⟩
      · rintro ⟨⟨h1, h2⟩, h3⟩
        exact ⟨h3, by omega⟩
    · have hkeq : k = p.length := by omega
      subst hkeq
      rw [getD_append_ge (by rw [hlen1])]
      rw [hlen1, Nat.sub_self]
      rw [windowSlot]
      refine ((List.countP_eq_zero.mpr ?_).symm)
      intro q hq hcon
      simp only [Bool.and_eq_true, decide_eq_true_eq] at hcon
      omega

/-- `BuildFor` establishes the invariant for the empty scanned text. -/
theorem BuildFor_inv (p : List Char) (wildcard : Char) :
    Inv p wildcard (WildcardMatcher.BuildFor p wildcard) [] := by
  refine Reset_inv rfl rfl ?_
  show (Split p (fun x => x == wildcard)).length
    = (assignIds (Split p (fun x => x == wildcard)) 0).length
  rw [assignIds_length]

/-- The firing sequence over a text, from any state satisfying the
invariant: the flag at offset `j` is the match condition for the text
scanned through offset `j`. -/
theorem ScanFlags_eq {p : List Char} {wildcard : Char} :
    ∀ (rest : List Char) (m : WildcardMatcher) (T : List Char),
    Inv p wildcard m T →
    ScanFlags m rest
      = (List.range rest.length).map (fun j =>
          matchCondB (assignIds (Split p (fun x => x == wildcard)) 0)
            p.length (T ++ rest.take (j + 1))) := by
  intro rest
  induction rest with
  | nil => intro m T _; rfl
  | cons c rest ih =>
    intro m T h
    obtain ⟨hstep, hfired⟩ := Scan_inv h c
    rw [ScanFlags]
    rw [hfired, h.2.1]
    rw [List.length_cons, List.range_succ_eq_map, List.map_cons, List.map_map]
    have h2 : ScanFlags (m.Scan c).1 rest
        = List.map ((fun j =>
            matchCondB (assignIds (Split p (fun x => x == wildcard)) 0)
              p.length (T ++ (c :: rest).take (j + 1))) ∘ Nat.succ)
            (List.range rest.length) := by
      rw [ih (m.Scan c).1 (T ++ [c]) hstep]
      refine (List.map_congr_left ?_).symm
      intro j hj
      simp only [Function.comp, Nat.succ_eq_add_one]
      rw [List.take_succ_cons, List.append_cons]
    rw [h2]
    rfl

/-- The list of recorded positions over a text, from any state satisfying
the invariant. -/
theorem FindFuzzyMatchesAux_eq {p : List Char} {wildcard : Char} :
    ∀ (rest : List Char) (m : WildcardMatcher) (T : List Char),
    Inv p wildcard m T →
    FindFuzzyMatchesAux p.length m rest T.length
      = (List.range rest.length).filterMap (fun j =>
          if matchCondB (assignIds (Split p (fun x => x == wildcard)) 0)
              p.length (T ++ rest.take (j + 1)) = true
          then some (T.length + j + 1 - p.length) else none) := by
  intro rest
  induction rest with
  | nil => intro m T _; rfl
  | cons c rest ih =>
    intro m T h
    obtain ⟨hstep, hfired⟩ := Scan_inv h c
    rw [FindFuzzyMatchesAux]
    rw [hfired, h.2.1]
    rw [List.length_cons, List.range_succ_eq_map]
    rw [List.filterMap_cons]
    rw [List.filterMap_map]
    have htail : FindFuzzyMatchesAux p.length (m.Scan c).1 rest (T.length + 1)
        = (List.range rest.length).filterMap (fun j =>
            if matchCondB (assignIds (Split p (fun x => x == wildcard)) 0)
                p.length ((T ++ [c]) ++ rest.take (j + 1)) = true
            then some (T.length + 1 + j + 1 - p.length) else none) := by
      have hx := ih (m.Scan c).1 (T ++ [c]) hstep
      rwa [List.length_append, List.length_singleton] at hx
    have htake0 : (c :: rest).take (0 + 1) = [c] := by
      rw [List.take_succ_cons, List.take_zero]
    rw [htake0]
    have htails : (List.range rest.length).filterMap
        ((fun j =>
          if matchCondB (assignIds (Split p (fun x => x == wildcard)) 0)
              p.length (T ++ (c :: rest).take (j + 1)) = true
          then some (T.length + j + 1 - p.length) else none) ∘ Nat.succ)
        = FindFuzzyMatchesAux p.length (m.Scan c).1 rest (T.length + 1) := by
      rw [htail]
      refine List.filterMap_congr ?_
      intro j hj
      simp only [Function.comp, Nat.succ_eq_add_one]
      rw [List.take_succ_cons, List.append_cons]
      have harith : T.length + (j + 1) + 1 - p.length
          = T.length + 1 + j + 1 - p.length := by omega
      rw [harith]
    rw [htails]
    cases hmc : matchCondB (assignIds (Split p (fun x => x == wildcard)) 0)
        p.length (T ++ [c]) with
    | true => simp only [if_true, List.cons_append, List.nil_append]
    | false => simp only [Bool.false_eq_true, if_false, List.nil_append]

/-- The positions reported by `FindFuzzyMatches`: one position
`j + 1 - pattern_length` for each text offset `j` at which the match
condition of the scanned prefix holds. -/
theorem FindFuzzyMatches_eq (p text : List Char) (wildcard : Char) :
    FindFuzzyMatches p text wildcard
      = (List.range text.length).filterMap (fun j =>
          if matchCondB (assignIds (Split p (fun x => x == wildcard)) 0)
              p.length (text.take (j + 1)) = true
          then some (j + 1 - p.length) else none) := by
  have hx := FindFuzzyMatchesAux_eq text
    (WildcardMatcher.BuildFor p wildcard) [] (BuildFor_inv p wildcard)
  simp only [List.nil_append, List.length_nil, Nat.zero_add] at hx
  exact hx

/-- The firing flags of a freshly built matcher over a text. -/
theorem ScanFlags_buildFor (p text : List Char) (wildcard : Char) :
    ScanFlags (WildcardMatcher.BuildFor p wildcard) text
      = (List.range text.length).map (fun j =>
          matchCondB (assignIds (Split p (fun x => x == wildcard)) 0)
            p.length (text.take (j + 1))) := by
  have hx := ScanFlags_eq text
    (WildcardMatcher.BuildFor p wildcard) [] (BuildFor_inv p wildcard)
  simpa using hx

theorem getD_map_range_any {α : Type} {f : Nat → α} {d : α} {n k : Nat}
    (h : k < n) : ((List.range n).map f).getD k d = f k := by
  rw [List.getD_eq_getElem?_getD, List.getElem?_map, List.getElem?_range h]
  rfl

/-- The match condition forces the scanned prefix to be at least as long
as the pattern: the first fragment, placed at offset `0` of the
hypothetical alignment, must fit. -/
theorem matchCond_length {p S : List Char} {wildcard : Char}
    (h : matchCondB (assignIds (Split p (fun x => x == wildcard)) 0)
      p.length S = true) : p.length ≤ S.length := by
  obtain ⟨h0, t0, hht⟩ : ∃ h0 t0,
      splitR (fun x => x == wildcard) p = h0 :: t0 := by
    cases hr : splitR (fun x => x == wildcard) p with
    | nil => exact absurd hr (splitR_ne_nil _ p)
    | cons a b => exact ⟨a, b, rfl⟩
  have hmem : (h0, 0 + h0.length)
      ∈ assignIds (Split p (fun x => x == wildcard)) 0 := by
    rw [Split_eq_splitR, hht, assignIds]
    exact List.mem_cons_self _ _
  have hall := List.all_eq_true.mp h _ hmem
  simp only [Bool.and_eq_true, decide_eq_true_eq] at hall
  obtain ⟨⟨h1, h2⟩, h3⟩ := hall
  have hlen3 : h0.length ≤ (S.take (S.length + (0 + h0.length)
      - p.length)).length := h3.length_le
  rw [List.length_take] at hlen3
  rcases Nat.le_min.mp hlen3 with ⟨ha, _⟩
  omega

/-- Scanning a list of characters (the cursor/counter evolution of a
sequence of `Scan` calls, discarding the firing flags). -/
def ScanAll (m : WildcardMatcher) : List Char → WildcardMatcher
  | [] => m
  | c :: rest => ScanAll (m.Scan c).1 rest

/-- `Reset` reads only the pattern length and the automaton (and keeps
the word count), so any two matchers agreeing on those reset to the same
state. -/
theorem Reset_eq_of_core {m m' : WildcardMatcher}
    (h1 : m.pattern_length = m'.pattern_length)
    (h2 : m.number_of_words = m'.number_of_words)
    (h3 : m.wids = m'.wids) : m.Reset = m'.Reset := by
  cases m
  cases m'
  simp only at h1 h2 h3
  subst h1
  subst h2
  subst h3
  rfl

theorem ScanAll_core : ∀ (cs : List Char) (m : WildcardMatcher),
    (ScanAll m cs).pattern_length = m.pattern_length
    ∧ (ScanAll m cs).number_of_words = m.number_of_words
    ∧ (ScanAll m cs).wids = m.wids := by
  intro cs
  induction cs with
  | nil => intro m; exact ⟨rfl, rfl, rfl⟩
  | cons c rest ih =>
    intro m
    rw [ScanAll]
    exact ih (m.Scan c).1

/-! ### The claims -/

/-- For a pattern without wildcard characters the match condition is
exactly "the pattern is a suffix of the scanned prefix". -/
theorem matchCond_no_wildcard {p : List Char} {wildcard : Char}
    (hwc : ∀ c ∈ p, c ≠ wildcard) (S : List Char) :
    matchCondB (assignIds (Split p (fun x => x == wildcard)) 0)
      p.length S = true ↔ p <:+ S := by
  have hsplitR : splitR (fun x => x == wildcard) p = [p] :=
    splitR_no_delims (fun c hc => beq_eq_false_iff_ne.mpr (hwc c hc))
  rw [Split_eq_splitR, hsplitR]
  show matchCondB [(p, 0 + p.length)] p.length S = true ↔ _
  rw [matchCondB]
  simp only [List.all_cons, List.all_nil, Bool.and_true, Bool.and_eq_true,
    decide_eq_true_eq, Nat.zero_add]
  constructor
  · rintro ⟨⟨_, _⟩, h3⟩
    rwa [Nat.add_sub_cancel, List.take_length] at h3
  · intro h
    refine ⟨⟨Nat.le_refl _, by omega⟩, ?_⟩
    rwa [Nat.add_sub_cancel, List.take_length]

/-- C1 (amended to nonempty patterns): for every nonempty pattern without
wildcard characters and every text, `FindFuzzyMatches` returns exactly
the starting positions at which the pattern occurs as a literal substring
of the text, overlapping occurrences included. -/
theorem C1_exact_substring (p text : List Char) (wildcard : Char)
    (hne : p ≠ []) (hwc : ∀ c ∈ p, c ≠ wildcard) (j : Nat) :
    j ∈ FindFuzzyMatches p text wildcard
      ↔ j + p.length ≤ text.length ∧ (text.drop j).take p.length = p := by
  have hLpos : 1 ≤ p.length := List.length_pos.mpr hne
  rw [FindFuzzyMatches_eq, List.mem_filterMap]
  constructor
  · rintro ⟨i, hi, hfi⟩
    rw [List.mem_range] at hi
    by_cases hcond : matchCondB
        (assignIds (Split p (fun x => x == wildcard)) 0) p.length
        (text.take (i + 1)) = true
    · rw [if_pos hcond] at hfi
      have hj : i + 1 - p.length = j := Option.some_injective _ hfi
      have hsuf : p <:+ text.take (i + 1) :=
        (matchCond_no_wildcard hwc _).mp hcond
      have hplen : p.length ≤ i + 1 := by
        have hx := hsuf.length_le
        rw [List.length_take] at hx
        exact Nat.le_trans hx (Nat.min_le_left _ _)
      refine ⟨by omega, ?_⟩
      have hdrop := List.suffix_iff_eq_drop.mp hsuf
      have hlt : (text.take (i + 1)).length = i + 1 :=
        List.length_take_of_le (by omega)
      rw [hlt, List.drop_take] at hdrop
      have h4 : (i + 1) - (i + 1 - p.length) = p.length := by omega
      rw [h4] at hdrop
      rw [← hj]
      exact hdrop.symm
    · rw [if_neg hcond] at hfi
      exact absurd hfi (by simp)
  · rintro ⟨hjle, hjeq⟩
    refine ⟨j + p.length - 1, ?_, ?_⟩
    · rw [List.mem_range]
      omega
    · have hi1 : j + p.length - 1 + 1 = j + p.length := by omega
      rw [hi1]
      have hsuf : p <:+ text.take (j + p.length) := by
        rw [List.suffix_iff_eq_drop]
        have hlen : (text.take (j + p.length)).length = j + p.length :=
          List.length_take_of_le hjle
        rw [hlen]
        have h5 : j + p.length - p.length = j := by omega
        rw [h5, List.drop_take]
        have h6 : j + p.length - j = p.length := by omega
        rw [h6]
        exact hjeq.symm
      rw [if_pos ((matchCond_no_wildcard hwc _).mpr hsuf)]
      congr 1
      omega

/-- C1 (counterexample to the claim as stated): the empty pattern has no
wildcard characters and occurs as a literal substring of `"ab"` at
position `0`, yet `FindFuzzyMatches` does not report position `0` — the
loop only fires while scanning a character, so the occurrence before the
first character is missed. -/
theorem C1_empty_pattern_counterexample :
    ¬ (0 ∈ FindFuzzyMatches [] ['a', 'b'] '?')
    ∧ 0 + ([] : List Char).length ≤ (['a', 'b'] : List Char).length
    ∧ ((['a', 'b'] : List Char).drop 0).take ([] : List Char).length
      = ([] : List Char) := by
  refine ⟨?_, by decide, by decide⟩
  intro h
  have : FindFuzzyMatches [] ['a', 'b'] '?' = [1, 2] := by rfl
  rw [this] at h
  simp at h

/-- C1 witness: pattern `"ab"`, text `"abab"`; the occurrence at
position `2` is reported. -/
theorem C1_exact_substring_witness :
    (['a', 'b'] : List Char) ≠ []
    ∧ (2 ∈ FindFuzzyMatches ['a', 'b'] ['a', 'b', 'a', 'b'] '?') := by
  refine ⟨by decide, ?_⟩
  refine (C1_exact_substring ['a', 'b'] ['a', 'b', 'a', 'b'] '?'
    (by decide) (by decide) 2).mpr (by decide)

/-- C3 (amended): the empty pattern is supported without error, and the
reported matches over a text of length `n` are exactly the positions
`1, 2, …, n`: every position except `0`, which the scan loop never
reaches because `on_match` can only fire while scanning a character. -/
theorem C3_empty_pattern (text : List Char) (wildcard : Char) :
    FindFuzzyMatches [] text wildcard
      = (List.range text.length).map (fun i => i + 1) := by
  rw [FindFuzzyMatches_eq]
  have hone : ∀ S : List Char,
      matchCondB (assignIds (Split [] (fun x => x == wildcard)) 0)
        (List.length ([] : List Char)) S = true := by
    intro S
    show matchCondB [([], 0 + List.length ([] : List Char))] 0 S = true
    rw [matchCondB]
    simp [List.nil_suffix]
  have hstep : (List.range text.length).filterMap (fun j =>
      if matchCondB (assignIds (Split [] (fun x => x == wildcard)) 0)
          (List.length ([] : List Char)) (text.take (j + 1)) = true
      then some (j + 1 - List.length ([] : List Char)) else none)
      = (List.range text.length).filterMap (fun j => some (j + 1)) := by
    refine List.filterMap_congr ?_
    intro j hj
    rw [if_pos (hone _)]
    rfl
  rw [hstep]
  exact congrFun (List.filterMap_eq_map (fun j => j + 1))
    (List.range text.length)

/-- C3 (counterexample to the claim as stated): for the empty pattern —
a degenerate pattern — and the text `"b"`, position `0` is a valid text
position but is not in the returned match list. -/
theorem C3_empty_pattern_counterexample :
    ¬ (0 ∈ FindFuzzyMatches [] ['b'] '?') := by
  intro h
  have : FindFuzzyMatches [] ['b'] '?' = [1] := by rfl
  rw [this] at h
  simp at h

/-- For an all-wildcard pattern of length `k` the match condition is
exactly "at least `k` characters have been scanned". -/
theorem matchCond_all_wildcards {k : Nat} {wildcard : Char}
    (S : List Char) :
    matchCondB (assignIds (Split (List.replicate k wildcard)
        (fun x => x == wildcard)) 0) k S = true
    ↔ k ≤ S.length := by
  have hsplit : Split (List.replicate k wildcard) (fun x => x == wildcard)
      = List.replicate (k + 1) [] := by
    rw [Split_eq_splitR]
    exact @splitR_replicate (fun x => x == wildcard) wildcard
      (beq_self_eq_true wildcard) k
  rw [hsplit]
  constructor
  · intro h
    have hmem : (([] : List Char), 0 + List.length ([] : List Char))
        ∈ assignIds (List.replicate (k + 1) []) 0 := by
      rw [List.replicate_succ, assignIds]
      exact List.mem_cons_self _ _
    have hall := List.all_eq_true.mp h _ hmem
    simp only [Bool.and_eq_true, decide_eq_true_eq] at hall
    obtain ⟨⟨_, h2⟩, _⟩ := hall
    simpa using h2
  · intro h
    rw [matchCondB]
    refine List.all_eq_true.mpr ?_
    intro q hq
    have hw : q.1 = [] := by
      have hx : q.1 ∈ wordsOf (assignIds (List.replicate (k + 1) []) 0) :=
        List.mem_map.mpr ⟨q, hq, rfl⟩
      rw [wordsOf_assignIds] at hx
      exact List.eq_of_mem_replicate hx
    have hid : q.2 ≤ k := by
      have h1 := assignIds_mem_le _ 0 q hq
      have h2 : ((List.replicate (k + 1) ([] : List Char)).map
          List.length).sum = 0 := by simp
      rw [h2, List.length_replicate] at h1
      omega
    simp only [Bool.and_eq_true, decide_eq_true_eq]
    refine ⟨⟨hid, by omega⟩, ?_⟩
    rw [hw]
    exact List.nil_suffix

theorem filterMap_range_shift {k : Nat} (hk : 1 ≤ k) :
    ∀ m : Nat, (List.range (k - 1 + m)).filterMap
      (fun j => if k ≤ j + 1 then some (j + 1 - k) else none)
      = List.range m := by
  intro m
  induction m with
  | zero =>
    have hx : (List.range (k - 1 + 0)).filterMap
        (fun j => if k ≤ j + 1 then some (j + 1 - k) else none) = [] := by
      refine List.filterMap_eq_nil_iff.mpr ?_
      intro j hj
      rw [List.mem_range] at hj
      rw [if_neg (by omega)]
    exact hx
  | succ m ih =>
    have harr : k - 1 + (m + 1) = (k - 1 + m) + 1 := by omega
    rw [harr, List.range_succ, List.filterMap_append, ih]
    have hx : (List.filterMap
        (fun j => if k ≤ j + 1 then some (j + 1 - k) else none)
        [k - 1 + m]) = [m] := by
      simp only [List.filterMap_cons, List.filterMap_nil]
      rw [if_pos (by omega)]
      have h1 : k - 1 + m + 1 - k = m := by omega
      rw [h1]
    rw [hx, ← List.range_succ]

/-- C7: for a pattern of `k ≥ 1` wildcard characters and a text of
length `n ≥ k`, the returned match list is exactly `0, 1, …, n - k`. -/
theorem C7_all_wildcards (k : Nat) (text : List Char) (wildcard : Char)
    (hk : 1 ≤ k) (hlen : k ≤ text.length) :
    FindFuzzyMatches (List.replicate k wildcard) text wildcard
      = List.range (text.length - k + 1) := by
  rw [FindFuzzyMatches_eq]
  have hstep : (List.range text.length).filterMap (fun j =>
      if matchCondB (assignIds (Split (List.replicate k wildcard)
          (fun x => x == wildcard)) 0)
        (List.replicate k wildcard).length (text.take (j + 1)) = true
      then some (j + 1 - (List.replicate k wildcard).length) else none)
      = (List.range text.length).filterMap
        (fun j => if k ≤ j + 1 then some (j + 1 - k) else none) := by
    refine List.filterMap_congr ?_
    intro j hj
    rw [List.mem_range] at hj
    rw [List.length_replicate]
    by_cases hcase : k ≤ j + 1
    · rw [if_pos ?side, if_pos hcase]
      case side =>
        refine (matchCond_all_wildcards _).mpr ?_
        rw [List.length_take]
        exact Nat.le_min.mpr ⟨hcase, hlen⟩
    · rw [if_neg ?side2, if_neg hcase]
      case side2 =>
        intro hcon
        have h1 := (matchCond_all_wildcards _).mp hcon
        rw [List.length_take] at h1
        exact hcase (Nat.le_trans h1 (Nat.min_le_left _ _))
  rw [hstep]
  have hfin := filterMap_range_shift hk (text.length - k + 1)
  rw [show k - 1 + (text.length - k + 1) = text.length from by omega] at hfin
  exact hfin

/-- C2: whenever `on_match` fires while scanning the character at text
index `i`, the pattern length is at most `i + 1`, so the recorded start
position `i + 1 - pattern_length` is a well-defined nonnegative index and
the `size_t` subtraction in `FindFuzzyMatches` cannot underflow. -/
theorem C2_no_underflow (p text : List Char) (wildcard : Char) (i : Nat)
    (h : (ScanFlags (WildcardMatcher.BuildFor p wildcard) text).getD i false
      = true) :
    p.length ≤ i + 1 := by
  rw [ScanFlags_buildFor] at h
  by_cases hi : i < text.length
  · rw [getD_map_range_any hi] at h
    have h1 := matchCond_length h
    rw [List.length_take] at h1
    exact Nat.le_trans h1 (Nat.min_le_left _ _)
  · have hlen : ((List.range text.length).map (fun j =>
        matchCondB (assignIds (Split p (fun x => x == wildcard)) 0)
          p.length (text.take (j + 1)))).length ≤ i := by
      simp only [List.length_map, List.length_range]
      omega
    rw [List.getD_eq_default _ _ hlen] at h
    exact absurd h (by simp)

/-- C2 witness: pattern `"ab"`, text `"ab"`; `on_match` fires at index
`1` and the guard `pattern_length ≤ i + 1` holds there. -/
theorem C2_no_underflow_witness :
    (ScanFlags (WildcardMatcher.BuildFor ['a', 'b'] '?') ['a', 'b']).getD
      1 false = true
    ∧ (['a', 'b'] : List Char).length ≤ 1 + 1 := by
  have hf : (ScanFlags (WildcardMatcher.BuildFor ['a', 'b'] '?')
      ['a', 'b']).getD 1 false = true := by decide
  exact ⟨hf, C2_no_underflow ['a', 'b'] ['a', 'b'] '?' 1 hf⟩

/-- C6: `BuildFor` assigns fragment `k` (0-indexed) the identifier
`(sum of the lengths of fragments 0..k) + k`: the fragment's cumulative
end offset in the pattern, counting one consumed wildcard separator per
earlier fragment. -/
theorem C6_fragment_ids (p : List Char) (wildcard : Char) (k : Nat)
    (hk : k < (Split p (fun x => x == wildcard)).length) :
    (WildcardMatcher.BuildFor p wildcard).wids.getD k ([], 0)
      = ((Split p (fun x => x == wildcard)).getD k [],
        (((Split p (fun x => x == wildcard)).take (k + 1)).map
          List.length).sum + k) := by
  have hb : (WildcardMatcher.BuildFor p wildcard).wids
      = assignIds (Split p (fun x => x == wildcard)) 0 := rfl
  rw [hb, assignIds_getD _ 0 k hk, Nat.zero_add]

/-- C6 witness: pattern `"ab?c"`; fragment `1` (the `"c"`) receives
identifier `(2 + 1) + 1 = 4`, its end offset in the pattern. -/
theorem C6_fragment_ids_witness :
    1 < (Split ['a', 'b', '?', 'c'] (fun x => x == '?')).length
    ∧ (WildcardMatcher.BuildFor ['a', 'b', '?', 'c'] '?').wids.getD 1 ([], 0)
      = ((Split ['a', 'b', '?', 'c'] (fun x => x == '?')).getD 1 [],
        (((Split ['a', 'b', '?', 'c'] (fun x => x == '?')).take (1 + 1)).map
          List.length).sum + 1) := by
  have h1 : 1 < (Split ['a', 'b', '?', 'c'] (fun x => x == '?')).length := by
    decide
  exact ⟨h1, C6_fragment_ids ['a', 'b', '?', 'c'] '?' 1 h1⟩

/-- C8: calling `Reset` on a matcher that has already scanned arbitrary
characters and then scanning a text yields the identical sequence of
`on_match` firings (hence the identical match list) as scanning that
text with a freshly built matcher for the same pattern. -/
theorem C8_reset_replay (p : List Char) (wildcard : Char)
    (cs text : List Char) :
    ScanFlags ((ScanAll (WildcardMatcher.BuildFor p wildcard) cs).Reset) text
      = ScanFlags (WildcardMatcher.BuildFor p wildcard) text := by
  have hcore := ScanAll_core cs (WildcardMatcher.BuildFor p wildcard)
  have h1 : (ScanAll (WildcardMatcher.BuildFor p wildcard) cs).Reset
      = (WildcardMatcher.BuildFor p wildcard).Reset :=
    Reset_eq_of_core hcore.1 hcore.2.1 hcore.2.2
  have h2 : (WildcardMatcher.BuildFor p wildcard).Reset
      = WildcardMatcher.BuildFor p wildcard :=
    Reset_eq_of_core rfl rfl rfl
  rw [h1, h2]

/-- C7 witness: pattern `"?"`, text `"xyz"`; the reported matches are
`0, 1, 2`. -/
theorem C7_all_wildcards_witness :
    1 ≤ 1 ∧ 1 ≤ (['x', 'y', 'z'] : List Char).length
    ∧ FindFuzzyMatches (List.replicate 1 '?') ['x', 'y', 'z'] '?'
      = List.range ((['x', 'y', 'z'] : List Char).length - 1 + 1) :=
  ⟨Nat.le_refl 1, by decide,
    C7_all_wildcards 1 ['x', 'y', 'z'] '?' (Nat.le_refl 1) (by decide)⟩

/-- C4: from any node of a built automaton, `GenerateMatches` reports the
terminated ids of every suffix of the node's path in chain order (longest
suffix first, one block per suffix along the terminal-link chain); the
ids delivered are exactly the identifiers of the builder pairs whose word
is a suffix of the path, and they contain no duplicates when the builder
ids are pairwise distinct. -/
theorem C4_generate_matches (wids : List (List Char × Nat)) (s : List Char)
    (hnode : isNode (wordsOf wids) s = true) :
    GenerateMatches wids s = s.tails.flatMap (terminatedStringIds wids)
    ∧ (∀ id : Nat, id ∈ GenerateMatches wids s
        ↔ ∃ w, (w, id) ∈ wids ∧ w <:+ s)
    ∧ ((wids.map (fun q => q.2)).Nodup → (GenerateMatches wids s).Nodup) :=
  ⟨GenerateMatches_eq hnode, fun _ => mem_GenerateMatches hnode,
    fun h => GenerateMatches_nodup hnode h⟩

/-- C4 witness: builder input `[("a", 1), ("", 0)]`, node `"a"`; id `1`
is reported exactly because `"a"` is a suffix of the path. -/
theorem C4_generate_matches_witness :
    isNode (wordsOf [(['a'], 1), ([], 0)]) ['a'] = true
    ∧ (1 ∈ GenerateMatches [(['a'], 1), ([], 0)] ['a']
        ↔ ∃ w, (w, 1) ∈ [(['a'], 1), ([], 0)] ∧ w <:+ ['a']) := by
  have h1 : isNode (wordsOf [(['a'], 1), ([], 0)]) ['a'] = true := by decide
  exact ⟨h1, (C4_generate_matches [(['a'], 1), ([], 0)] ['a'] h1).2.1 1⟩

/-- C5: the automaton transition terminates — its value satisfies the
recursion equations of `GetAutomatonTransition` from the source (fuel
independence of the embedding): the trie child if one exists, the root
when at the root without such a child, and otherwise the transition of
the suffix link, whose node is strictly shallower at every fallback
step. -/
theorem C5_automaton_transition (ws : List (List Char)) (s : List Char)
    (hnode : isNode ws s = true) (c : Char) :
    (GetAutomatonTransition ws s c =
      match GetTrieTransition ws s c with
      | some u => u
      | none =>
        if s = [] then []
        else GetAutomatonTransition ws (suffixLink ws s) c)
    ∧ (s ≠ [] → (suffixLink ws s).length < s.length) :=
  ⟨GetAutomatonTransition_eqn hnode c,
    fun hne => suffixLink_length_lt hnode hne⟩

/-- C5 witness: the one-word trie `{"ab"}` at node `"a"` reading `'c'`
falls back through the suffix link (which is strictly shallower). -/
theorem C5_automaton_transition_witness :
    isNode [['a', 'b']] ['a'] = true
    ∧ ((GetAutomatonTransition [['a', 'b']] ['a'] 'c' =
        match GetTrieTransition [['a', 'b']] ['a'] 'c' with
        | some u => u
        | none =>
          if (['a'] : List Char) = [] then []
          else GetAutomatonTransition [['a', 'b']]
            (suffixLink [['a', 'b']] ['a']) 'c')
      ∧ ((['a'] : List Char) ≠ [] →
          (suffixLink [['a', 'b']] ['a']).length
            < (['a'] : List Char).length)) := by
  have h1 : isNode [['a', 'b']] ['a'] = true := by decide
  exact ⟨h1, C5_automaton_transition [['a', 'b']] ['a'] h1 'c'⟩

/-- C10: for a delimiter predicate holding exactly at `w`, `Split`
returns `count of w + 1` fragments, never an empty list, no fragment
contains `w`, and joining the fragments with a single `w` between
consecutive fragments reconstructs the string. -/
theorem C10_split (s : List Char) (w : Char) (p : Char → Bool)
    (hp : ∀ c, p c = true ↔ c = w) :
    Split s p ≠ []
    ∧ (Split s p).length = s.count w + 1
    ∧ (∀ f ∈ Split s p, w ∉ f)
    ∧ joinWith w (Split s p) = s := by
  rw [Split_eq_splitR]
  refine ⟨splitR_ne_nil p s, ?_, ?_, splitR_joinWith hp s⟩
  · rw [splitR_length]
    congr 1
    have hc : s.count w = s.countP (fun x => x == w) :=
      List.count_eq_countP ..
    rw [hc]
    refine List.countP_congr ?_
    intro c _
    rw [hp c]
    simp
  · intro f hf hmem
    have hfalse : p w = false := splitR_no_delimiter p s f hf w hmem
    have htrue : p w = true := (hp w).mpr rfl
    rw [htrue] at hfalse
    exact absurd hfalse (by simp)

/-- C10 witness: splitting `"a?b"` at `'?'` yields two fragments. -/
theorem C10_split_witness :
    (∀ c : Char, ((fun x => x == '?') c = true ↔ c = '?'))
    ∧ (Split ['a', '?', 'b'] (fun x => x == '?')).length
      = (['a', '?', 'b'] : List Char).count '?' + 1 := by
  have hp : ∀ c : Char, ((fun x => x == '?') c = true ↔ c = '?') := by
    intro c
    simp
  exact ⟨hp, (C10_split ['a', '?', 'b'] '?' _ hp).2.1⟩

/-! ### The memoization cache (`automaton_transitions_cache`) -/

/-- Cache lookup: the entry for (node path, character), if present. -/
def lookupCache (cache : List ((List Char × Char) × List Char))
    (s : List Char) (c : Char) : Option (List Char) :=
  (cache.find? (fun e => decide (e.1.1 = s) && decide (e.1.2 = c))).map
    (fun e => e.2)

/-- Fueled model of the memoizing `GetAutomatonTransition`: on a cache
hit return the cached target; on a miss compute the transition (trie
child, root, or suffix-link fallback) and record it.  The C++ `emplace`
inserts a `nullptr` placeholder that is overwritten before the call
returns; since the fallback recursion only visits strictly shorter node
paths, the placeholder entry for the current key is never read, and the
model inserts the finished entry instead. -/
def GetAutomatonTransitionCachedF (ws : List (List Char)) :
    Nat → List ((List Char × Char) × List Char) → List Char → Char →
      List Char × List ((List Char × Char) × List Char)
  | 0, cache, _, _ => ([], cache)
  | fuel + 1, cache, s, c =>
    match lookupCache cache s c with
    | some r => (r, cache)
    | none =>
      if isNode ws (s ++ [c]) then (s ++ [c], ((s, c), s ++ [c]) :: cache)
      else if s = [] then ([], ((s, c), []) :: cache)
      else
        ((GetAutomatonTransitionCachedF ws fuel cache (suffixLink ws s) c).1,
          ((s, c),
            (GetAutomatonTransitionCachedF ws fuel cache
              (suffixLink ws s) c).1)
            :: (GetAutomatonTransitionCachedF ws fuel cache
              (suffixLink ws s) c).2)

/-- The memoizing transition (fuel discharged). -/
def GetAutomatonTransitionCached (ws : List (List Char))
    (cache : List ((List Char × Char) × List Char)) (s : List Char)
    (c : Char) : List Char × List ((List Char × Char) × List Char) :=
  GetAutomatonTransitionCachedF ws (s.length + 1) cache s c

/-- A consistent cache: every entry is keyed by a node and stores exactly
the value of the pure transition function. -/
def CacheConsistent (ws : List (List Char))
    (cache : List ((List Char × Char) × List Char)) : Prop :=
  ∀ e ∈ cache, isNode ws e.1.1 = true
    ∧ e.2 = GetAutomatonTransition ws e.1.1 e.1.2

theorem lookupCache_some {cache : List ((List Char × Char) × List Char)}
    {s : List Char} {c : Char} {r : List Char}
    (h : lookupCache cache s c = some r) :
    ∃ e ∈ cache, e.1.1 = s ∧ e.1.2 = c ∧ e.2 = r := by
  unfold lookupCache at h
  cases hfd : cache.find?
      (fun e => decide (e.1.1 = s) && decide (e.1.2 = c)) with
  | none => rw [hfd] at h; simp at h
  | some e =>
    rw [hfd] at h
    have hp := List.find?_some hfd
    simp only [Bool.and_eq_true, decide_eq_true_eq] at hp
    refine ⟨e, List.mem_of_find?_eq_some hfd, hp.1, hp.2, ?_⟩
    simpa using h

theorem CacheConsistent_cons {ws : List (List Char)}
    {cache : List ((List Char × Char) × List Char)} {s : List Char}
    {c : Char} {v : List Char} (h : CacheConsistent ws cache)
    (hn : isNode ws s = true) (hv : v = GetAutomatonTransition ws s c) :
    CacheConsistent ws (((s, c), v) :: cache) := by
  intro e he
  rcases List.mem_cons.mp he with rfl | he
  · exact ⟨hn, hv⟩
  · exact h e he

theorem cachedF_unfold_hit {ws : List (List Char)} {fuel : Nat}
    {cache : List ((List Char × Char) × List Char)} {s : List Char}
    {c : Char} {r : List Char} (h : lookupCache cache s c = some r) :
    GetAutomatonTransitionCachedF ws (fuel + 1) cache s c = (r, cache) := by
  rw [GetAutomatonTransitionCachedF, h]

theorem cachedF_unfold_child {ws : List (List Char)} {fuel : Nat}
    {cache : List ((List Char × Char) × List Char)} {s : List Char}
    {c : Char} (h : lookupCache cache s c = none)
    (hn : isNode ws (s ++ [c]) = true) :
    GetAutomatonTransitionCachedF ws (fuel + 1) cache s c
      = (s ++ [c], ((s, c), s ++ [c]) :: cache) := by
  rw [GetAutomatonTransitionCachedF, h]
  simp [hn]

theorem cachedF_unfold_root {ws : List (List Char)} {fuel : Nat}
    {cache : List ((List Char × Char) × List Char)} {c : Char}
    (h : lookupCache cache [] c = none)
    (hn : ¬ isNode ws ([] ++ [c]) = true) :
    GetAutomatonTransitionCachedF ws (fuel + 1) cache [] c
      = ([], (([], c), []) :: cache) := by
  rw [GetAutomatonTransitionCachedF, h]
  simp only [List.nil_append] at hn
  simp [hn]

theorem cachedF_unfold_rec {ws : List (List Char)} {fuel : Nat}
    {cache : List ((List Char × Char) × List Char)} {s : List Char}
    {c : Char} (h : lookupCache cache s c = none)
    (hn : ¬ isNode ws (s ++ [c]) = true) (hs : s ≠ []) :
    GetAutomatonTransitionCachedF ws (fuel + 1) cache s c
      = ((GetAutomatonTransitionCachedF ws fuel cache (suffixLink ws s) c).1,
        ((s, c),
          (GetAutomatonTransitionCachedF ws fuel cache
            (suffixLink ws s) c).1)
          :: (GetAutomatonTransitionCachedF ws fuel cache
            (suffixLink ws s) c).2) := by
  rw [GetAutomatonTransitionCachedF, h]
  simp [hn, hs]

/-- The root branches of the cached transition (shared by the base and
the inductive case of the fuel induction). -/
theorem cached_root {ws : List (List Char)}
    {cache : List ((List Char × Char) × List Char)} (c : Char) (fuel : Nat)
    (hcache : CacheConsistent ws cache) (hfuel : 1 ≤ fuel) :
    (GetAutomatonTransitionCachedF ws fuel cache [] c).1
      = GetAutomatonTransition ws [] c
    ∧ CacheConsistent ws (GetAutomatonTransitionCachedF ws fuel cache [] c).2
    ∧ cache <:+ (GetAutomatonTransitionCachedF ws fuel cache [] c).2 := by
  obtain ⟨f, rfl⟩ : ∃ f, fuel = f + 1 :=
    ⟨fuel - 1, (Nat.succ_pred_eq_of_pos hfuel).symm⟩
  cases hlk : lookupCache cache [] c with
  | some r =>
    rw [cachedF_unfold_hit hlk]
    obtain ⟨e, hemem, he1, he2, he3⟩ := lookupCache_some hlk
    have hcons := hcache e hemem
    refine ⟨?_, hcache, List.suffix_refl _⟩
    rw [← he3, hcons.2, he1, he2]
  | none =>
    by_cases hnd : isNode ws ([] ++ [c]) = true
    · rw [cachedF_unfold_child hlk hnd]
      have hval : GetAutomatonTransition ws [] c = [] ++ [c] := by
        rw [GetAutomatonTransition_eq_lsn (isNode_nil ws) c]
        exact lsn_eq_self hnd
      exact ⟨hval.symm, CacheConsistent_cons hcache (isNode_nil ws) hval.symm,
        List.suffix_cons _ _⟩
    · rw [cachedF_unfold_root hlk hnd]
      have hval : GetAutomatonTransition ws [] c = [] := by
        rw [GetAutomatonTransition_eq_lsn (isNode_nil ws) c]
        simp only [List.nil_append] at hnd ⊢
        simp [lsn_cons, hnd, lsn_nil]
      exact ⟨hval.symm, CacheConsistent_cons hcache (isNode_nil ws) hval.symm,
        List.suffix_cons _ _⟩

/-- Correctness of the memoizing transition: starting from a consistent
cache, the returned value is the pure transition, the cache stays
consistent, and the cache is only extended. -/
theorem cachedF_spec (ws : List (List Char)) :
    ∀ n, ∀ s : List Char, s.length ≤ n → isNode ws s = true →
    ∀ cache, CacheConsistent ws cache → ∀ c : Char, ∀ fuel,
    s.length + 1 ≤ fuel →
    (GetAutomatonTransitionCachedF ws fuel cache s c).1
      = GetAutomatonTransition ws s c
    ∧ CacheConsistent ws (GetAutomatonTransitionCachedF ws fuel cache s c).2
    ∧ cache <:+ (GetAutomatonTransitionCachedF ws fuel cache s c).2 := by
  intro n
  induction n with
  | zero =>
    intro s hlen _ cache hcache c fuel hfuel
    have hs : s = [] :=
      List.length_eq_zero.mp (Nat.le_antisymm hlen (Nat.zero_le _))
    subst hs
    exact cached_root c fuel hcache (Nat.le_trans (Nat.le_refl _) hfuel)
  | succ n ih =>
    intro s hlen hnode cache hcache c fuel hfuel
    by_cases hs : s = []
    · subst hs
      exact cached_root c fuel hcache (by omega)
    · obtain ⟨f, rfl⟩ : ∃ f, fuel = f + 1 :=
        ⟨fuel - 1, (Nat.succ_pred_eq_of_pos (by omega)).symm⟩
      cases hlk : lookupCache cache s c with
      | some r =>
        rw [cachedF_unfold_hit hlk]
        obtain ⟨e, hemem, he1, he2, he3⟩ := lookupCache_some hlk
        have hcons := hcache e hemem
        refine ⟨?_, hcache, List.suffix_refl _⟩
        rw [← he3, hcons.2, he1, he2]
      | none =>
        by_cases hnd : isNode ws (s ++ [c]) = true
        · rw [cachedF_unfold_child hlk hnd]
          have hval : GetAutomatonTransition ws s c = s ++ [c] := by
            rw [GetAutomatonTransition_eq_lsn hnode c]
            exact lsn_eq_self hnd
          exact ⟨hval.symm, CacheConsistent_cons hcache hnode hval.symm,
            List.suffix_cons _ _⟩
        · rw [cachedF_unfold_rec hlk hnd hs]
          have hslnode : isNode ws (suffixLink ws s) = true :=
            isNode_suffixLink hnode
          have hsllt : (suffixLink ws s).length < s.length :=
            suffixLink_length_lt hnode hs
          have hrec := ih (suffixLink ws s) (by omega) hslnode cache hcache
            c f (by omega)
          have hval : GetAutomatonTransition ws s c
              = GetAutomatonTransition ws (suffixLink ws s) c := by
            rw [GetAutomatonTransition_eqn hnode c]
            unfold GetTrieTransition
            simp [hnd, hs]
          refine ⟨by rw [hrec.1, hval], ?_, ?_⟩
          · exact CacheConsistent_cons hrec.2.1 hnode (by rw [hrec.1, hval])
          · exact hrec.2.2.trans (List.suffix_cons _ _)

/-- C9: the transition cache is a pure memoization — starting from any
consistent cache, a cached-transition call returns exactly the value of
the pure recursive transition function, leaves every existing cache
entry in place (the cache is only extended), and keeps every entry equal
to the pure function.  The trie structure, terminated ids, suffix links
and terminal links are functions of the builder input in this embedding
and are not mutable state at all, so the automaton is observably
immutable. -/
theorem C9_cached_transition (ws : List (List Char))
    (cache : List ((List Char × Char) × List Char)) (s : List Char)
    (c : Char) (hnode : isNode ws s = true)
    (hcache : CacheConsistent ws cache) :
    (GetAutomatonTransitionCached ws cache s c).1
      = GetAutomatonTransition ws s c
    ∧ CacheConsistent ws (GetAutomatonTransitionCached ws cache s c).2
    ∧ cache <:+ (GetAutomatonTransitionCached ws cache s c).2 :=
  cachedF_spec ws s.length s (Nat.le_refl _) hnode cache hcache c
    (s.length + 1) (Nat.le_refl _)

/-- C9 witness: the one-word trie `{"a"}`, the empty cache, the root
node and character `'a'`. -/
theorem C9_cached_transition_witness :
    isNode [['a']] [] = true ∧ CacheConsistent [['a']] []
    ∧ ((GetAutomatonTransitionCached [['a']] [] [] 'a').1
        = GetAutomatonTransition [['a']] [] 'a'
      ∧ CacheConsistent [['a']]
          (GetAutomatonTransitionCached [['a']] [] [] 'a').2
      ∧ [] <:+ (GetAutomatonTransitionCached [['a']] [] [] 'a').2) := by
  have h1 : isNode [['a']] [] = true := by decide
  have h2 : CacheConsistent [['a']] [] :=
    fun e he => absurd he (List.not_mem_nil e)
  exact ⟨h1, h2, C9_cached_transition [['a']] [] [] 'a' h1 h2⟩

end FuzzyMatching
